import Mathlib

/-!
Verification of the operator-dependency subsystem of the `projects` repository.

The embedding follows `src/projects/controllers/operators.py`. Operator and
edge identities are modelled as `Nat`. The Graph Store primitives
(`list_dependencies`, `list_next_operators`, `create_dependency`,
`delete_dependency`) live in `projects/controllers/dependencies.py`, which is
not part of the source tree here; they are modelled from the spec (section 4.1)
as plain CRUD over a per-pipeline record of operators and dependency edges.
-/

namespace ProjectsGraph

/-- A dependency record: a row of the `dependencies` table
(`uuid`, `operator_id`, `dependency`), i.e. a directed edge from the dependent
operator `operator_id` to the prerequisite operator `dependency`. -/
structure Edge where
  uuid : Nat
  operator_id : Nat
  dependency : Nat
deriving DecidableEq

/-- The Graph Store of one pipeline (experiment): the operators (node ids), the
dependency edges, a source of fresh ids, and `muts`, an instrumentation counter
that counts every `create_dependency` / `delete_dependency` call (used to state
the spec's "zero Graph Store mutations" properties). -/
structure Store where
  operators : List Nat
  edges : List Edge
  nextId : Nat
  muts : Nat
deriving DecidableEq

/-- Modelled from the spec: `listDependencies(operatorId)` of section 4.1
(`dependencies.py` is not in src). Returns all edges whose source is
`operator_id`, each with its own edge identity and target. -/
def list_dependencies (s : Store) (operator_id : Nat) : List Edge :=
  s.edges.filter (fun e => e.operator_id == operator_id)

/-- The targets of an operator's outgoing edges, i.e.
`[d['dependency'] for d in list_dependencies(op)]`. -/
def depsOf (s : Store) (op : Nat) : List Nat :=
  (list_dependencies s op).map (fun e => e.dependency)

/-- Modelled from the spec: `listDownstream(operatorId)` of section 4.1 —
all operators that have an edge targeting `operator_id`. -/
def list_next_operators (s : Store) (operator_id : Nat) : List Nat :=
  (s.edges.filter (fun e => e.dependency == operator_id)).map (fun e => e.operator_id)

/-- Modelled from the spec: `addEdge(sourceId, targetId)` of section 4.1 —
creates one edge (a discrete Graph Store mutation). The fresh edge uuid is
drawn from the `nextId` counter. -/
def create_dependency (s : Store) (operator_id dependency : Nat) : Store :=
  { s with edges := s.edges ++ [⟨s.nextId, operator_id, dependency⟩],
           nextId := s.nextId + 1,
           muts := s.muts + 1 }

/-- Modelled from the spec: `removeEdge(edgeId)` of section 4.1 — deletes one
edge by its own identity (a discrete Graph Store mutation). -/
def delete_dependency (s : Store) (u : Nat) : Store :=
  { s with edges := s.edges.filter (fun e => !(e.uuid == u)),
           muts := s.muts + 1 }

/-- `update_dependencies` (operators.py lines 176-196): reconcile the stored
edge set of `operator_id` with the target list `new_dependencies`; additions
first, then removals, each removal deleting (by uuid) the first stored edge
record whose target matches. -/
def update_dependencies (s : Store) (operator_id : Nat) (new_dependencies : List Nat) : Store :=
  let dependencies_raw := list_dependencies s operator_id
  let dependencies := dependencies_raw.map (fun e => e.dependency)
  let dependencies_to_add := new_dependencies.filter (fun d => decide (d ∉ dependencies))
  let dependencies_to_delete := dependencies.filter (fun d => decide (d ∉ new_dependencies))
  let s1 := dependencies_to_add.foldl (fun acc d => create_dependency acc operator_id d) s
  dependencies_to_delete.foldl (fun acc d =>
    match dependencies_raw.find? (fun e => e.dependency == d) with
    | some e => delete_dependency acc e.uuid
    | none => acc) s1

/-- Well-formedness of the Graph Store: ids below the freshness counter, unique
edge ids, unique operator ids, every edge within the pipeline's operator set
(spec invariant I3), no self-edge and no duplicate target per operator
(spec invariant I1). -/
structure WF (s : Store) : Prop where
  op_lt : ∀ o ∈ s.operators, o < s.nextId
  ops_nodup : s.operators.Nodup
  uuid_lt : ∀ e ∈ s.edges, e.uuid < s.nextId
  uuid_nodup : (s.edges.map (fun e => e.uuid)).Nodup
  src_mem : ∀ e ∈ s.edges, e.operator_id ∈ s.operators
  tgt_mem : ∀ e ∈ s.edges, e.dependency ∈ s.operators
  no_self : ∀ e ∈ s.edges, e.operator_id ≠ e.dependency
  tgt_nodup : ∀ op, (depsOf s op).Nodup

/-! ### Basic membership lemmas -/

theorem mem_list_dependencies {s : Store} {op : Nat} {e : Edge} :
    e ∈ list_dependencies s op ↔ e ∈ s.edges ∧ e.operator_id = op := by
  simp [list_dependencies]

theorem mem_depsOf {s : Store} {op x : Nat} :
    x ∈ depsOf s op ↔ ∃ e ∈ s.edges, e.operator_id = op ∧ e.dependency = x := by
  simp only [depsOf, List.mem_map, mem_list_dependencies]
  constructor
  · rintro ⟨e, ⟨he, hop⟩, hd⟩; exact ⟨e, he, hop, hd⟩
  · rintro ⟨e, he, hop, hd⟩; exact ⟨e, ⟨he, hop⟩, hd⟩

/-! ### The create-fold -/

/-- The edges appended by a run of `create_dependency` calls for targets `l`,
starting from fresh id `start`. -/
def mkEdges (start : Nat) (op : Nat) : List Nat → List Edge
  | [] => []
  | d :: ds => ⟨start, op, d⟩ :: mkEdges (start + 1) op ds

theorem foldl_create_eq (op : Nat) (l : List Nat) (s : Store) :
    (l.foldl (fun acc d => create_dependency acc op d) s) =
      { s with edges := s.edges ++ mkEdges s.nextId op l,
               nextId := s.nextId + l.length,
               muts := s.muts + l.length } := by
  induction l generalizing s with
  | nil => simp [mkEdges]
  | cons d ds ih =>
    rw [List.foldl_cons, ih]
    cases s with
    | mk ops es ni mu =>
      simp only [create_dependency, mkEdges, List.length_cons, Store.mk.injEq]
      refine ⟨by simp, by simp, by omega, by omega⟩

theorem mem_mkEdges {start op : Nat} {l : List Nat} {e : Edge} :
    e ∈ mkEdges start op l →
      e.operator_id = op ∧ e.dependency ∈ l ∧ start ≤ e.uuid ∧ e.uuid < start + l.length := by
  induction l generalizing start with
  | nil => simp [mkEdges]
  | cons d ds ih =>
    intro h
    simp only [List.length_cons]
    rcases List.mem_cons.mp h with rfl | h2
    · refine ⟨rfl, List.mem_cons_self _ _, Nat.le_refl _, ?_⟩
      show start < start + (ds.length + 1)
      omega
    · obtain ⟨h1, h2', h3, h4⟩ := ih h2
      exact ⟨h1, List.mem_cons_of_mem _ h2', by omega, by omega⟩

theorem mkEdges_map_dependency (start op : Nat) (l : List Nat) :
    (mkEdges start op l).map (fun e => e.dependency) = l := by
  induction l generalizing start with
  | nil => simp [mkEdges]
  | cons d ds ih => simp [mkEdges, ih]

theorem mkEdges_filter_op (start op : Nat) (l : List Nat) :
    (mkEdges start op l).filter (fun e => e.operator_id == op) = mkEdges start op l := by
  induction l generalizing start with
  | nil => simp [mkEdges]
  | cons d ds ih => simp [mkEdges, ih]

theorem mkEdges_filter_ne (start op q : Nat) (l : List Nat) (h : q ≠ op) :
    (mkEdges start op l).filter (fun e => e.operator_id == q) = [] := by
  induction l generalizing start with
  | nil => simp [mkEdges]
  | cons d ds ih => simp [mkEdges, ih, Ne.symm h]

theorem mkEdges_map_uuid_nodup (start op : Nat) (l : List Nat) :
    ((mkEdges start op l).map (fun e => e.uuid)).Nodup := by
  induction l generalizing start with
  | nil => simp [mkEdges]
  | cons d ds ih =>
    simp only [mkEdges, List.map_cons, List.nodup_cons]
    refine ⟨fun hmem => ?_, ih (start + 1)⟩
    simp only [List.mem_map] at hmem
    obtain ⟨e, he, hu⟩ := hmem
    have := (mem_mkEdges he).2.2.1
    omega

/-! ### The delete-fold -/

/-- The edge uuids that the removal loop of `update_dependencies` deletes:
for each target `d`, the uuid of the first record in `raw` whose target is `d`. -/
def delUuids (raw : List Edge) (l : List Nat) : List Nat :=
  l.filterMap (fun d => (raw.find? (fun e => e.dependency == d)).map (fun e => e.uuid))

theorem foldl_delete_eq (raw : List Edge) (l : List Nat) (s : Store) :
    (l.foldl (fun acc d =>
      match raw.find? (fun e => e.dependency == d) with
      | some e => delete_dependency acc e.uuid
      | none => acc) s) =
    { s with edges := s.edges.filter (fun e => decide (e.uuid ∉ delUuids raw l)),
             muts := s.muts + (delUuids raw l).length } := by
  induction l generalizing s with
  | nil => cases s; simp [delUuids]
  | cons d ds ih =>
    rcases hf : raw.find? (fun e => e.dependency == d) with _ | e
    · simp only [List.foldl_cons, hf, ih]
      have hdel : delUuids raw (d :: ds) = delUuids raw ds := by
        simp [delUuids, List.filterMap_cons, hf]
      rw [hdel]
    · rw [List.foldl_cons]
      simp only [hf]
      rw [ih]
      have hdel : delUuids raw (d :: ds) = e.uuid :: delUuids raw ds := by
        simp [delUuids, List.filterMap_cons, hf]
      rw [hdel]
      simp only [delete_dependency]
      cases s with
      | mk ops es ni mu =>
        have hedges : List.filter (fun e2 => decide (e2.uuid ∉ delUuids raw ds))
              (List.filter (fun e2 => !(e2.uuid == e.uuid)) es)
            = List.filter (fun e2 => decide (e2.uuid ∉ e.uuid :: delUuids raw ds)) es := by
          rw [List.filter_filter]
          apply List.filter_congr
          intro x _
          by_cases hx : x.uuid = e.uuid <;> simp [hx]
        simp only [hedges, Store.mk.injEq, List.length_cons, eq_self_iff_true, true_and, and_true]
        omega


theorem mem_delUuids_lt {raw : List Edge} {l : List Nat} {u : Nat}
    (h : u ∈ delUuids raw l) : ∃ e ∈ raw, e.uuid = u := by
  simp only [delUuids, List.mem_filterMap, Option.map_eq_some'] at h
  obtain ⟨d, _, e, hfind, hu⟩ := h
  exact ⟨e, List.mem_of_find?_eq_some hfind, hu⟩

theorem find?_eq_of_nodup_target {raw : List Edge} {e : Edge}
    (hnd : (raw.map (fun x => x.dependency)).Nodup) (he : e ∈ raw) :
    raw.find? (fun x => x.dependency == e.dependency) = some e := by
  induction raw with
  | nil => simp at he
  | cons a t ih =>
    simp only [List.map_cons, List.nodup_cons] at hnd
    rcases List.mem_cons.mp he with rfl | ht
    · simp
    · have hne : ¬(a.dependency == e.dependency) = true := by
        simp only [beq_iff_eq]
        intro hh
        exact hnd.1 (hh ▸ List.mem_map_of_mem _ ht)
      rw [List.find?_cons_of_neg t hne]
      exact ih hnd.2 ht

theorem edge_eq_of_uuid_eq {s : Store} (hnd : (s.edges.map (fun e => e.uuid)).Nodup)
    {e e' : Edge} (he : e ∈ s.edges) (he' : e' ∈ s.edges) (hu : e.uuid = e'.uuid) : e = e' :=
  List.inj_on_of_nodup_map hnd he he' hu

theorem mem_delUuids_iff {s : Store} {op : Nat}
    (huuid_nodup : (s.edges.map (fun e => e.uuid)).Nodup)
    (htgt : (depsOf s op).Nodup) {l : List Nat} {e : Edge}
    (he : e ∈ s.edges) :
    e.uuid ∈ delUuids (list_dependencies s op) l ↔ e.operator_id = op ∧ e.dependency ∈ l := by
  constructor
  · intro h
    simp only [delUuids, List.mem_filterMap, Option.map_eq_some'] at h
    obtain ⟨d, hd, e', hfind, hu⟩ := h
    have he'raw : e' ∈ list_dependencies s op := List.mem_of_find?_eq_some hfind
    have he's : e' ∈ s.edges := (mem_list_dependencies.mp he'raw).1
    have heq : e = e' := edge_eq_of_uuid_eq huuid_nodup he he's hu.symm
    subst heq
    have hdep : e.dependency = d := by
      have := List.find?_some hfind
      simpa [beq_iff_eq] using this
    exact ⟨(mem_list_dependencies.mp he'raw).2, hdep ▸ hd⟩
  · rintro ⟨hop, hdep⟩
    have heraw : e ∈ list_dependencies s op := mem_list_dependencies.mpr ⟨he, hop⟩
    have hfind : (list_dependencies s op).find? (fun x => x.dependency == e.dependency) = some e :=
      find?_eq_of_nodup_target htgt heraw
    simp only [delUuids, List.mem_filterMap, Option.map_eq_some']
    exact ⟨e.dependency, hdep, e, hfind, rfl⟩

/-! ### Characterization of `update_dependencies` -/

theorem update_dependencies_def (s : Store) (op : Nat) (new : List Nat) :
    update_dependencies s op new =
      (((depsOf s op).filter (fun d => decide (d ∉ new))).foldl
        (fun acc d =>
          match (list_dependencies s op).find? (fun e => e.dependency == d) with
          | some e => delete_dependency acc e.uuid
          | none => acc)
        ((new.filter (fun d => decide (d ∉ depsOf s op))).foldl
          (fun acc d => create_dependency acc op d) s)) := rfl

theorem update_dependencies_operators (s : Store) (op : Nat) (new : List Nat) :
    (update_dependencies s op new).operators = s.operators := by
  rw [update_dependencies_def, foldl_create_eq, foldl_delete_eq]

theorem update_dependencies_nextId (s : Store) (op : Nat) (new : List Nat) :
    (update_dependencies s op new).nextId =
      s.nextId + (new.filter (fun d => decide (d ∉ depsOf s op))).length := by
  rw [update_dependencies_def, foldl_create_eq, foldl_delete_eq]

theorem update_dependencies_edges {s : Store} {op : Nat} (new : List Nat)
    (huuid_lt : ∀ e ∈ s.edges, e.uuid < s.nextId)
    (huuid_nodup : (s.edges.map (fun e => e.uuid)).Nodup)
    (htgt : (depsOf s op).Nodup) :
    (update_dependencies s op new).edges =
      s.edges.filter (fun e => !(e.operator_id == op && decide (e.dependency ∉ new)))
        ++ mkEdges s.nextId op (new.filter (fun d => decide (d ∉ depsOf s op))) := by
  rw [update_dependencies_def, foldl_create_eq, foldl_delete_eq]
  simp only [List.filter_append]
  have hmk : (mkEdges s.nextId op (new.filter (fun d => decide (d ∉ depsOf s op)))).filter
      (fun e => decide (e.uuid ∉ delUuids (list_dependencies s op)
        ((depsOf s op).filter (fun d => decide (d ∉ new)))))
      = mkEdges s.nextId op (new.filter (fun d => decide (d ∉ depsOf s op))) := by
    apply List.filter_eq_self.mpr
    intro e he
    obtain ⟨_, _, hge, _⟩ := mem_mkEdges he
    simp only [decide_eq_true_eq]
    intro hmem
    obtain ⟨e', he', hu⟩ := mem_delUuids_lt hmem
    have := huuid_lt e' (mem_list_dependencies.mp he').1
    omega
  rw [hmk]
  congr 1
  apply List.filter_congr
  intro e he
  have hiff2 : e.uuid ∈ delUuids (list_dependencies s op)
      ((depsOf s op).filter (fun d => decide (d ∉ new)))
      ↔ (e.operator_id = op ∧ e.dependency ∉ new) := by
    rw [@mem_delUuids_iff s op huuid_nodup htgt
      ((depsOf s op).filter (fun d => decide (d ∉ new))) e he]
    simp only [List.mem_filter, decide_eq_true_eq]
    constructor
    · rintro ⟨h1, _, h3⟩
      exact ⟨h1, h3⟩
    · rintro ⟨h1, h3⟩
      exact ⟨h1, mem_depsOf.mpr ⟨e, he, h1, rfl⟩, h3⟩
  generalize hD : delUuids (list_dependencies s op)
    ((depsOf s op).filter (fun d => decide (d ∉ new))) = D at hiff2 ⊢
  by_cases hop : e.operator_id = op <;> by_cases hn : e.dependency ∈ new <;>
    simp [hiff2, hop, hn]

theorem map_dep_filter (raw : List Edge) (p : Nat → Bool) :
    ((raw.filter (fun e => p e.dependency)).map (fun e => e.dependency))
      = (raw.map (fun e => e.dependency)).filter p := by
  induction raw with
  | nil => simp
  | cons a t ih => by_cases hp : p a.dependency <;> simp [hp, ih]

theorem list_dependencies_update_self {s : Store} {op : Nat} (new : List Nat)
    (huuid_lt : ∀ e ∈ s.edges, e.uuid < s.nextId)
    (huuid_nodup : (s.edges.map (fun e => e.uuid)).Nodup)
    (htgt : (depsOf s op).Nodup) :
    list_dependencies (update_dependencies s op new) op =
      (list_dependencies s op).filter (fun e => decide (e.dependency ∈ new))
        ++ mkEdges s.nextId op (new.filter (fun d => decide (d ∉ depsOf s op))) := by
  unfold list_dependencies
  rw [update_dependencies_edges new huuid_lt huuid_nodup htgt]
  rw [List.filter_append, mkEdges_filter_op]
  congr 1
  show List.filter _ (List.filter _ s.edges) = List.filter _ (List.filter _ s.edges)
  rw [List.filter_filter, List.filter_filter]
  apply List.filter_congr
  intro e _
  by_cases hop : e.operator_id = op <;> by_cases hn : e.dependency ∈ new <;>
    simp [hop, hn]

theorem depsOf_update_self {s : Store} {op : Nat} (new : List Nat)
    (huuid_lt : ∀ e ∈ s.edges, e.uuid < s.nextId)
    (huuid_nodup : (s.edges.map (fun e => e.uuid)).Nodup)
    (htgt : (depsOf s op).Nodup) :
    depsOf (update_dependencies s op new) op =
      (depsOf s op).filter (fun d => decide (d ∈ new))
        ++ new.filter (fun d => decide (d ∉ depsOf s op)) := by
  unfold depsOf
  rw [list_dependencies_update_self new huuid_lt huuid_nodup htgt, List.map_append,
    mkEdges_map_dependency]
  congr 1
  exact map_dep_filter (list_dependencies s op) (fun d => decide (d ∈ new))

theorem mem_depsOf_update_self {s : Store} {op : Nat} {new : List Nat}
    (huuid_lt : ∀ e ∈ s.edges, e.uuid < s.nextId)
    (huuid_nodup : (s.edges.map (fun e => e.uuid)).Nodup)
    (htgt : (depsOf s op).Nodup) {x : Nat} :
    x ∈ depsOf (update_dependencies s op new) op ↔ x ∈ new := by
  rw [depsOf_update_self new huuid_lt huuid_nodup htgt]
  simp only [List.mem_append, List.mem_filter, decide_eq_true_eq]
  constructor
  · rintro (⟨_, hx⟩ | ⟨hx, _⟩) <;> exact hx
  · intro hx
    by_cases hd : x ∈ depsOf s op
    · exact Or.inl ⟨hd, hx⟩
    · exact Or.inr ⟨hx, hd⟩

theorem depsOf_update_self_nodup {s : Store} {op : Nat} {new : List Nat}
    (huuid_lt : ∀ e ∈ s.edges, e.uuid < s.nextId)
    (huuid_nodup : (s.edges.map (fun e => e.uuid)).Nodup)
    (htgt : (depsOf s op).Nodup) (hnew : new.Nodup) :
    (depsOf (update_dependencies s op new) op).Nodup := by
  rw [depsOf_update_self new huuid_lt huuid_nodup htgt]
  refine List.Nodup.append (htgt.filter _) (hnew.filter _) ?_
  intro x hx1 hx2
  simp only [List.mem_filter, decide_eq_true_eq] at hx1 hx2
  exact hx2.2 hx1.1

theorem list_dependencies_update_frame {s : Store} {op : Nat} (new : List Nat) {q : Nat}
    (hq : q ≠ op)
    (huuid_lt : ∀ e ∈ s.edges, e.uuid < s.nextId)
    (huuid_nodup : (s.edges.map (fun e => e.uuid)).Nodup)
    (htgt : (depsOf s op).Nodup) :
    list_dependencies (update_dependencies s op new) q = list_dependencies s q := by
  unfold list_dependencies
  rw [update_dependencies_edges new huuid_lt huuid_nodup htgt]
  rw [List.filter_append, mkEdges_filter_ne _ _ _ _ hq, List.append_nil, List.filter_filter]
  apply List.filter_congr
  intro e _
  by_cases hop : e.operator_id = q
  · simp [hop]
    exact Or.inl hq
  · simp [hop]

theorem depsOf_update_frame {s : Store} {op : Nat} (new : List Nat) {q : Nat}
    (hq : q ≠ op)
    (huuid_lt : ∀ e ∈ s.edges, e.uuid < s.nextId)
    (huuid_nodup : (s.edges.map (fun e => e.uuid)).Nodup)
    (htgt : (depsOf s op).Nodup) :
    depsOf (update_dependencies s op new) q = depsOf s q := by
  unfold depsOf
  rw [list_dependencies_update_frame new hq huuid_lt huuid_nodup htgt]

/-- The no-op case of synchronization: a target list that is set-equal to the
currently stored targets produces no Graph Store call at all. -/
theorem update_dependencies_no_op {s : Store} {op : Nat} {new : List Nat}
    (h : ∀ x, x ∈ new ↔ x ∈ depsOf s op) :
    update_dependencies s op new = s := by
  rw [update_dependencies_def]
  have ha : new.filter (fun d => decide (d ∉ depsOf s op)) = [] := by
    apply List.filter_eq_nil_iff.mpr
    intro d hd
    simpa using (h d).mp hd
  have hb : (depsOf s op).filter (fun d => decide (d ∉ new)) = [] := by
    apply List.filter_eq_nil_iff.mpr
    intro d hd
    simpa using (h d).mpr hd
  rw [ha, hb]
  simp

/-- `update_dependencies` preserves well-formedness when the target list has no
duplicates, references only operators of the pipeline, and does not contain the
operator itself. -/
theorem WF_update_dependencies {s : Store} {op : Nat} {new : List Nat} (hwf : WF s)
    (hop : op ∈ s.operators) (hnew_mem : ∀ d ∈ new, d ∈ s.operators)
    (hself : op ∉ new) (hnodup : new.Nodup) : WF (update_dependencies s op new) := by
  have hedges := update_dependencies_edges new hwf.uuid_lt hwf.uuid_nodup (hwf.tgt_nodup op)
  have hops := update_dependencies_operators s op new
  have hnext := update_dependencies_nextId s op new
  constructor
  · rw [hops, hnext]
    intro o ho
    have := hwf.op_lt o ho
    omega
  · rw [hops]; exact hwf.ops_nodup
  · rw [hedges, hnext]
    intro e he
    rcases List.mem_append.mp he with h1 | h2
    · have := hwf.uuid_lt e (List.mem_of_mem_filter h1)
      omega
    · have := (mem_mkEdges h2).2.2.2
      omega
  · rw [hedges]
    rw [List.map_append]
    apply List.Nodup.append
    · exact (List.Sublist.map _ (List.filter_sublist _)).nodup hwf.uuid_nodup
    · exact mkEdges_map_uuid_nodup _ _ _
    · intro u hu1 hu2
      simp only [List.mem_map] at hu1 hu2
      obtain ⟨e1, he1, hu1'⟩ := hu1
      obtain ⟨e2, he2, hu2'⟩ := hu2
      have hlt := hwf.uuid_lt e1 (List.mem_of_mem_filter he1)
      have hge := (mem_mkEdges he2).2.2.1
      omega
  · rw [hedges, hops]
    intro e he
    rcases List.mem_append.mp he with h1 | h2
    · exact hwf.src_mem e (List.mem_of_mem_filter h1)
    · rw [(mem_mkEdges h2).1]; exact hop
  · rw [hedges, hops]
    intro e he
    rcases List.mem_append.mp he with h1 | h2
    · exact hwf.tgt_mem e (List.mem_of_mem_filter h1)
    · have := (mem_mkEdges h2).2.1
      exact hnew_mem _ (List.mem_of_mem_filter this)
  · rw [hedges]
    intro e he
    rcases List.mem_append.mp he with h1 | h2
    · exact hwf.no_self e (List.mem_of_mem_filter h1)
    · obtain ⟨hopid, hdep, _, _⟩ := mem_mkEdges h2
      rw [hopid]
      intro hc
      exact hself (hc ▸ List.mem_of_mem_filter hdep)
  · intro q
    by_cases hq : q = op
    · subst hq
      exact depsOf_update_self_nodup hwf.uuid_lt hwf.uuid_nodup (hwf.tgt_nodup q) hnodup
    · rw [depsOf_update_frame new hq hwf.uuid_lt hwf.uuid_nodup (hwf.tgt_nodup op)]
      exact hwf.tgt_nodup q

/-! ### Claim theorems about the Dependency Synchronizer -/

/-- Helper: a store without edges is well-formed whenever its operator list has
distinct ids below the freshness counter. -/
theorem WF_no_edges (ops : List Nat) (n m : Nat) (h1 : ∀ o ∈ ops, o < n) (h2 : ops.Nodup) :
    WF { operators := ops, edges := [], nextId := n, muts := m } := by
  refine ⟨h1, h2, ?_, ?_, ?_, ?_, ?_, ?_⟩ <;> simp [depsOf, list_dependencies]

/-- C5: for every operator `op` and target dependency list `deps` containing
only existing, non-duplicate, non-self operator ids, synchronizing
(`update_dependencies op deps`) and then listing `op`'s dependencies (the
targets of `list_dependencies op`) returns exactly the set `deps`. -/
theorem C5_synchronize_then_list_exact (s : Store) (op : Nat) (deps : List Nat)
    (hwf : WF s)
    (hex : ∀ d ∈ deps, d ∈ s.operators)
    (hnodup : deps.Nodup)
    (hself : op ∉ deps) :
    ∀ x, x ∈ depsOf (update_dependencies s op deps) op ↔ x ∈ deps :=
  fun _ => mem_depsOf_update_self hwf.uuid_lt hwf.uuid_nodup (hwf.tgt_nodup op)

theorem C5_witness :
    WF { operators := [1, 2, 3], edges := [], nextId := 4, muts := 0 } ∧
    (∀ d ∈ [2, 3], d ∈ [1, 2, 3]) ∧ ([2, 3] : List Nat).Nodup ∧ 1 ∉ [2, 3] ∧
    (∀ x, x ∈ depsOf (update_dependencies
        { operators := [1, 2, 3], edges := [], nextId := 4, muts := 0 } 1 [2, 3]) 1
      ↔ x ∈ [2, 3]) := by
  refine ⟨WF_no_edges _ 4 0 (by decide) (by decide), by decide, by decide, by decide, ?_⟩
  exact C5_synchronize_then_list_exact _ 1 [2, 3]
    (WF_no_edges _ 4 0 (by decide) (by decide)) (by decide) (by decide) (by decide)

/-- C9: synchronizing an operator with a target list that is (set-)equal to its
currently stored dependency set issues zero Graph Store mutations — no
`create_dependency` and no `delete_dependency` call happens (the mutation
counter is unchanged; in fact the whole store is unchanged). -/
theorem C9_sync_current_no_mutation (s : Store) (op : Nat) (currentDeps : List Nat)
    (h : ∀ x, x ∈ currentDeps ↔ x ∈ depsOf s op) :
    (update_dependencies s op currentDeps).muts = s.muts ∧
    update_dependencies s op currentDeps = s :=
  ⟨by rw [update_dependencies_no_op h], update_dependencies_no_op h⟩

theorem C9_witness :
    (∀ x, x ∈ [2] ↔ x ∈ depsOf
      { operators := [1, 2], edges := [⟨0, 1, 2⟩], nextId := 3, muts := 0 } 1) ∧
    (update_dependencies
      { operators := [1, 2], edges := [⟨0, 1, 2⟩], nextId := 3, muts := 0 } 1 [2]).muts = 0 :=
  ⟨fun _ => Iff.rfl,
    (C9_sync_current_no_mutation
      { operators := [1, 2], edges := [⟨0, 1, 2⟩], nextId := 3, muts := 0 } 1 [2]
      (fun _ => Iff.rfl)).1⟩

/-- C10: synchronization is idempotent — running `update_dependencies op deps`
twice leaves the store exactly as running it once, and in particular the
second run issues zero Graph Store mutations (mutation counter unchanged). -/
theorem C10_sync_idempotent (s : Store) (op : Nat) (deps : List Nat)
    (hwf : WF s) (hnodup : deps.Nodup) :
    update_dependencies (update_dependencies s op deps) op deps
        = update_dependencies s op deps ∧
    (update_dependencies (update_dependencies s op deps) op deps).muts
        = (update_dependencies s op deps).muts := by
  have h : ∀ x, x ∈ deps ↔ x ∈ depsOf (update_dependencies s op deps) op :=
    fun _ => (mem_depsOf_update_self hwf.uuid_lt hwf.uuid_nodup (hwf.tgt_nodup op)).symm
  exact ⟨update_dependencies_no_op h, by rw [update_dependencies_no_op h]⟩

theorem C10_witness :
    WF { operators := [1, 2, 3], edges := [], nextId := 4, muts := 0 } ∧
    ([2, 3] : List Nat).Nodup ∧
    update_dependencies (update_dependencies
        { operators := [1, 2, 3], edges := [], nextId := 4, muts := 0 } 1 [2, 3]) 1 [2, 3]
      = update_dependencies
        { operators := [1, 2, 3], edges := [], nextId := 4, muts := 0 } 1 [2, 3] :=
  ⟨WF_no_edges _ 4 0 (by decide) (by decide), by decide,
    (C10_sync_idempotent _ 1 [2, 3]
      (WF_no_edges _ 4 0 (by decide) (by decide)) (by decide)).1⟩

/-! ### The Cycle Detector (operators.py lines 262-304)

`has_cycles_util(operator_id, visited, recursion_stack, new_dependencies,
new_dependencies_op)` is a recursive DFS over the pipeline's stored edges, with
the node `new_dependencies_op`'s outgoing edges replaced by the union of its
stored edges and `new_dependencies`. Its two shared mutable dicts are modelled
as membership lists threaded through the recursion: `visited` grows
monotonically (returned), while `recursion_stack` is exactly the current path
(pushed on entry, popped on normal exit), so it is passed downward only. The
per-neighbour loop body — recurse into an unvisited neighbour, or report a
cycle when the neighbour is on the recursion stack — is `dfsList`. The dicts
are keyed by the pipeline's operator ids `V`; a neighbour outside `V` would
raise `KeyError` in the source (unreachable: dependencies are validated to
exist in the experiment before the cycle check runs), so the traversal guards
membership in `V`. -/

theorem filter_not_mem_sublist (V v1 v2 : List Nat) (h : ∀ a, a ∈ v1 → a ∈ v2) :
    List.Sublist (V.filter (fun x => decide (x ∉ v2))) (V.filter (fun x => decide (x ∉ v1))) := by
  apply List.monotone_filter_right
  intro a ha
  simp only [decide_eq_true_eq] at ha ⊢
  exact fun h1 => ha (h a h1)

theorem filter_not_mem_length_le (V v1 v2 : List Nat) (h : ∀ a, a ∈ v1 → a ∈ v2) :
    (V.filter (fun x => decide (x ∉ v2))).length ≤ (V.filter (fun x => decide (x ∉ v1))).length :=
  (filter_not_mem_sublist V v1 v2 h).length_le

theorem filter_not_mem_length_lt (V v1 v2 : List Nat) (n : Nat)
    (h : ∀ a, a ∈ v1 → a ∈ v2) (hnV : n ∈ V) (hn1 : n ∉ v1) (hn2 : n ∈ v2) :
    (V.filter (fun x => decide (x ∉ v2))).length < (V.filter (fun x => decide (x ∉ v1))).length := by
  have hsub := filter_not_mem_sublist V v1 v2 h
  refine Nat.lt_of_le_of_ne hsub.length_le (fun heq => ?_)
  have hEq := hsub.eq_of_length heq
  have hmem : n ∈ V.filter (fun x => decide (x ∉ v1)) := by
    simp only [List.mem_filter, decide_eq_true_eq]
    exact ⟨hnV, hn1⟩
  rw [← hEq] at hmem
  simp only [List.mem_filter, decide_eq_true_eq] at hmem
  exact hmem.2 hn2

theorem lex_measure_enter (V visited : List Nat) (n : Nat) (hnV : n ∈ V) (hnv : n ∉ visited)
    (a b : Nat) :
    Prod.Lex (fun x y => x < y) (fun x y => x < y)
      ((V.filter (fun v => decide (v ∉ n :: visited))).length, b)
      ((V.filter (fun v => decide (v ∉ visited))).length, a) :=
  Prod.Lex.left _ _ (filter_not_mem_length_lt V visited (n :: visited) n
    (fun _ ha => List.mem_cons_of_mem _ ha) hnV hnv (List.mem_cons_self _ _))

theorem lex_measure_grow (V visited X : List Nat) (a b : Nat) (h : b < a) :
    Prod.Lex (fun x y => x < y) (fun x y => x < y)
      ((V.filter (fun v => decide (v ∉ X ++ visited))).length, b)
      ((V.filter (fun v => decide (v ∉ visited))).length, a) := by
  have hle := filter_not_mem_length_le V visited (X ++ visited)
    (fun c hc => List.mem_append_right _ hc)
  rcases Nat.lt_or_eq_of_le hle with hlt | heq
  · exact Prod.Lex.left _ _ hlt
  · rw [heq]
    exact Prod.Lex.right _ h

/-- The neighbour loop of `has_cycles_util` (operators.py lines 275-279), with
the recursive call into an unvisited neighbour inlined (entering `n` marks it
visited, pushes it on the recursion stack and loops over its neighbours
`adj n`). Returns the cycle flag and the nodes newly marked visited. After a
recursive call returns `false` the source re-reads `recursion_stack[n]`, which
the call has just reset to `False`; the corresponding branch here reads the
entry stack and is likewise never taken. -/
def dfsList (V : List Nat) (adj : Nat → List Nat) (visited stack ns : List Nat) :
    Bool × List Nat :=
  match ns with
  | [] => (false, [])
  | n :: rest =>
    if hn : n ∈ V ∧ n ∉ visited then
      let r := dfsList V adj (n :: visited) (n :: stack) (adj n)
      if r.1 then (true, r.2 ++ [n])
      else if n ∈ stack then (true, r.2 ++ [n])
      else
        let r2 := dfsList V adj ((r.2 ++ [n]) ++ visited) stack rest
        (r2.1, r2.2 ++ (r.2 ++ [n]))
    else if n ∈ stack then (true, [])
    else dfsList V adj visited stack rest
termination_by ((V.filter (fun v => decide (v ∉ visited))).length, ns.length)
decreasing_by
  · exact lex_measure_enter V visited _ hn.1 hn.2 _ _
  · exact lex_measure_grow V visited _ _ _ (by simp)
  · apply Prod.Lex.right
    simp

/-- `has_cycles_util` (operators.py lines 262-282): mark `operator_id` visited,
push it on the recursion stack, and run the neighbour loop over its adjacency.
The returned list extends the caller's `visited` set. -/
def has_cycles_util (V : List Nat) (adj : Nat → List Nat) (operator_id : Nat)
    (visited stack : List Nat) : Bool × List Nat :=
  let r := dfsList V adj (operator_id :: visited) (operator_id :: stack) (adj operator_id)
  (r.1, r.2 ++ [operator_id])

/-- The root loop of `raise_if_has_cycles` (operators.py lines 299-303): run
the DFS from every not-yet-visited operator, sharing the visited set; the
recursion stack is empty again at each root (every push was popped). -/
def raise_if_has_cycles_loop (V : List Nat) (adj : Nat → List Nat) :
    List Nat → List Nat → Bool
  | [], _ => false
  | r :: rest, visited =>
    if r ∉ visited then
      match has_cycles_util V adj r visited [] with
      | (true, _) => true
      | (false, ex) => raise_if_has_cycles_loop V adj rest (ex ++ visited)
    else raise_if_has_cycles_loop V adj rest visited

/-- The adjacency the Cycle Detector traverses (operators.py lines 266-270):
the stored targets of `v`, except that at `new_dependencies_op` the targets are
the union `dependencies + list(set(new_dependencies) - set(dependencies))` of
stored and hypothetical edges. On create, `new_dependencies_op` is `None` and
no node is special-cased. -/
def adjOf (s : Store) (new_dependencies : List Nat) (new_dependencies_op : Option Nat)
    (v : Nat) : List Nat :=
  let dependencies := depsOf s v
  if some v = new_dependencies_op then
    dependencies ++ (new_dependencies.filter (fun d => decide (d ∉ dependencies))).dedup
  else dependencies

/-- `raise_if_has_cycles` (operators.py lines 285-304): `true` means the
request is rejected with `BadRequest` ("Cyclical dependencies."); `false` means
the check passed. The visited/recursion-stack dicts are keyed by the uuids of
all operators of the experiment. -/
def raise_if_has_cycles (s : Store) (operator_id : Option Nat)
    (dependencies : List Nat) : Bool :=
  raise_if_has_cycles_loop s.operators (adjOf s dependencies operator_id) s.operators []

/-! ### Directed-graph semantics of the adjacency view -/

/-- One directed edge step of an adjacency view: `a` depends on `b`. -/
def adjStep (adj : Nat → List Nat) (a b : Nat) : Prop := b ∈ adj a

/-- No cycle is reachable from `v` along the adjacency view. -/
def Clean (adj : Nat → List Nat) (v : Nat) : Prop :=
  ¬ ∃ c, Relation.ReflTransGen (adjStep adj) v c ∧ Relation.TransGen (adjStep adj) c c

/-- The graph restricted to start nodes in `V` has a directed cycle. -/
def HasCycleIn (adj : Nat → List Nat) (V : List Nat) : Prop :=
  ∃ v ∈ V, Relation.TransGen (adjStep adj) v v

theorem not_cycle_of_clean {adj : Nat → List Nat} {v : Nat} (h : Clean adj v) :
    ¬ Relation.TransGen (adjStep adj) v v :=
  fun hc => h ⟨v, Relation.ReflTransGen.refl, hc⟩

theorem clean_of_forall_clean {adj : Nat → List Nat} {n : Nat}
    (h : ∀ m ∈ adj n, Clean adj m) : Clean adj n := by
  rintro ⟨c, hreach, hcyc⟩
  rcases Relation.ReflTransGen.cases_head hreach with heq | ⟨m, hstep, hrest⟩
  · have hcyc' : Relation.TransGen (adjStep adj) n n := by rw [heq]; exact hcyc
    rcases (Relation.TransGen.head'_iff).mp hcyc' with ⟨m, hstep, hrest⟩
    exact h m hstep ⟨n, hrest, hcyc'⟩
  · exact h m hstep ⟨c, hrest, hcyc⟩

/-- The recursion stack is a directed path: every node on it reaches the head. -/
theorem mem_stack_reaches_head {adj : Nat → List Nat} :
    ∀ {hd : Nat} {tl : List Nat}, List.Chain' (fun a b => a ∈ adj b) (hd :: tl) →
      ∀ n ∈ hd :: tl, Relation.ReflTransGen (adjStep adj) n hd := by
  intro hd tl
  induction tl generalizing hd with
  | nil =>
    intro _ n hn
    rcases List.mem_cons.mp hn with rfl | hn'
    · exact Relation.ReflTransGen.refl
    · simp at hn'
  | cons b t ih =>
    intro hch n hn
    have h1 : hd ∈ adj b := (List.chain'_cons.mp hch).1
    have h2 := (List.chain'_cons.mp hch).2
    rcases List.mem_cons.mp hn with rfl | hn'
    · exact Relation.ReflTransGen.refl
    · exact Relation.ReflTransGen.tail (ih h2 n hn') h1

/-- Soundness of the neighbour loop: a reported cycle is a real directed cycle
through a node of `V`. -/
theorem dfsList_sound (V : List Nat) (adj : Nat → List Nat) :
    ∀ (visited stack ns : List Nat),
      List.Chain' (fun a b => a ∈ adj b) stack →
      (∀ hd tl, stack = hd :: tl → ∀ n ∈ ns, n ∈ adj hd) →
      (∀ x ∈ stack, x ∈ V) →
      (dfsList V adj visited stack ns).1 = true →
      HasCycleIn adj V := by
  intro visited stack ns
  induction visited, stack, ns using dfsList.induct V adj with
  | case1 visited stack =>
    intro _ _ _ hres
    simp [dfsList] at hres
  | case2 visited stack n rest hn r hr ih1 =>
    intro hch hhd hsV _
    have hchain' : List.Chain' (fun a b => a ∈ adj b) (n :: stack) := by
      cases stack with
      | nil => simp
      | cons hd tl =>
        exact List.chain'_cons.mpr ⟨hhd hd tl rfl n (List.mem_cons_self _ _), hch⟩
    refine ih1 hchain' ?_ ?_ hr
    · intro hd2 tl2 heq m hm
      injection heq with h1 _
      rw [← h1]
      exact hm
    · intro x hx
      rcases List.mem_cons.mp hx with rfl | hx'
      · exact hn.1
      · exact hsV x hx'
  | case3 visited stack n rest hn r hr hstk ih1 =>
    intro hch hhd hsV _
    cases stack with
    | nil => simp at hstk
    | cons hd tl =>
      have hreach := mem_stack_reaches_head hch n hstk
      have hstep : adjStep adj hd n := hhd hd tl rfl n (List.mem_cons_self _ _)
      exact ⟨n, hsV n hstk, Relation.TransGen.tail' hreach hstep⟩
  | case4 visited stack n rest hn r hr hstk ih1 ih2 =>
    intro hch hhd hsV hres
    have hr' : ¬(dfsList V adj (n :: visited) (n :: stack) (adj n)).1 = true := hr
    rw [dfsList] at hres
    simp only [dif_pos hn] at hres
    rw [if_neg hr', if_neg hstk] at hres
    simp only at hres
    refine ih2 hch ?_ hsV hres
    intro hd2 tl2 heq m hm
    exact hhd hd2 tl2 heq m (List.mem_cons_of_mem _ hm)
  | case5 visited stack n rest hn hstk =>
    intro hch hhd hsV _
    cases stack with
    | nil => simp at hstk
    | cons hd tl =>
      have hreach := mem_stack_reaches_head hch n hstk
      have hstep : adjStep adj hd n := hhd hd tl rfl n (List.mem_cons_self _ _)
      exact ⟨n, hsV n hstk, Relation.TransGen.tail' hreach hstep⟩
  | case6 visited stack n rest hn hstk ih =>
    intro hch hhd hsV hres
    rw [dfsList] at hres
    simp only [dif_neg hn] at hres
    rw [if_neg (by simpa using hstk)] at hres
    refine ih hch ?_ hsV hres
    intro hd2 tl2 heq m hm
    exact hhd hd2 tl2 heq m (List.mem_cons_of_mem _ hm)

/-- Completeness bookkeeping of the neighbour loop: when no cycle is reported,
every newly visited node is a fresh node of `V` off the stack, every blackened
node (visited, off the stack) is clean, and every examined neighbour in `V` is
off the stack and clean. -/
theorem dfsList_complete (V : List Nat) (adj : Nat → List Nat)
    (hclosed : ∀ v ∈ V, ∀ m ∈ adj v, m ∈ V) :
    ∀ (visited stack ns : List Nat),
      (∀ x ∈ stack, x ∈ visited) →
      (∀ x ∈ visited, x ∈ V) →
      (∀ b ∈ visited, b ∉ stack → Clean adj b) →
      (dfsList V adj visited stack ns).1 = false →
      (∀ x ∈ (dfsList V adj visited stack ns).2, x ∈ V ∧ x ∉ visited ∧ x ∉ stack) ∧
      (∀ b, (b ∈ (dfsList V adj visited stack ns).2 ∨ b ∈ visited) → b ∉ stack → Clean adj b) ∧
      (∀ n ∈ ns, n ∈ V → n ∉ stack ∧ Clean adj n) := by
  intro visited stack ns
  induction visited, stack, ns using dfsList.induct V adj with
  | case1 visited stack =>
    intro hsv hvV hblack _
    rw [dfsList]
    refine ⟨by simp, ?_, by simp⟩
    intro b hb hbs
    rcases hb with hb | hb
    · simp at hb
    · exact hblack b hb hbs
  | case2 visited stack n rest hn r hr ih1 =>
    intro hsv hvV hblack hres
    have hr' : (dfsList V adj (n :: visited) (n :: stack) (adj n)).1 = true := hr
    rw [dfsList] at hres
    simp only [dif_pos hn, hr', if_true] at hres
    exact absurd hres (by simp)
  | case3 visited stack n rest hn r hr hstk ih1 =>
    intro hsv hvV hblack hres
    have hr' : ¬(dfsList V adj (n :: visited) (n :: stack) (adj n)).1 = true := hr
    rw [dfsList] at hres
    simp only [dif_pos hn, if_neg hr', if_pos hstk] at hres
    exact absurd hres (by simp)
  | case4 visited stack n rest hn r hr hstk ih1 ih2 =>
    intro hsv hvV hblack hres
    have hr' : ¬(dfsList V adj (n :: visited) (n :: stack) (adj n)).1 = true := hr
    have hnstack : n ∉ stack := fun hc => hn.2 (hsv n hc)
    have hs1 : ∀ x ∈ n :: stack, x ∈ n :: visited := by
      intro x hx
      rcases List.mem_cons.mp hx with rfl | hx'
      · exact List.mem_cons_self _ _
      · exact List.mem_cons_of_mem _ (hsv x hx')
    have hv1 : ∀ x ∈ n :: visited, x ∈ V := by
      intro x hx
      rcases List.mem_cons.mp hx with rfl | hx'
      · exact hn.1
      · exact hvV x hx'
    have hb1 : ∀ b ∈ n :: visited, b ∉ n :: stack → Clean adj b := by
      intro b hb hbs
      rcases List.mem_cons.mp hb with rfl | hb'
      · exact absurd (List.mem_cons_self _ _) hbs
      · exact hblack b hb' (fun hc => hbs (List.mem_cons_of_mem _ hc))
    have hres1 : (dfsList V adj (n :: visited) (n :: stack) (adj n)).1 = false := by
      cases hh : (dfsList V adj (n :: visited) (n :: stack) (adj n)).1
      · rfl
      · exact absurd hh hr'
    obtain ⟨q1, q2, q3⟩ := ih1 hs1 hv1 hb1 hres1
    have hcln : Clean adj n :=
      clean_of_forall_clean (fun m hm => (q3 m hm (hclosed n hn.1 m hm)).2)
    have hres2 : (dfsList V adj
        (((dfsList V adj (n :: visited) (n :: stack) (adj n)).2 ++ [n]) ++ visited)
        stack rest).1 = false := by
      rw [dfsList] at hres
      simp only [dif_pos hn, if_neg hr', if_neg hstk] at hres
      exact hres
    have hs2 : ∀ x ∈ stack,
        x ∈ ((dfsList V adj (n :: visited) (n :: stack) (adj n)).2 ++ [n]) ++ visited :=
      fun x hx => List.mem_append_right _ (hsv x hx)
    have hv2 : ∀ x ∈ ((dfsList V adj (n :: visited) (n :: stack) (adj n)).2 ++ [n]) ++ visited,
        x ∈ V := by
      intro x hx
      rcases List.mem_append.mp hx with hx' | hx'
      · rcases List.mem_append.mp hx' with hx'' | hx''
        · exact (q1 x hx'').1
        · rw [List.mem_singleton.mp hx'']
          exact hn.1
      · exact hvV x hx'
    have hb2 : ∀ b ∈ ((dfsList V adj (n :: visited) (n :: stack) (adj n)).2 ++ [n]) ++ visited,
        b ∉ stack → Clean adj b := by
      intro b hb hbs
      rcases List.mem_append.mp hb with hb' | hb'
      · rcases List.mem_append.mp hb' with hb'' | hb''
        · exact q2 b (Or.inl hb'') (q1 b hb'').2.2
        · rw [List.mem_singleton.mp hb'']
          exact hcln
      · have hbn : b ≠ n := fun hc => hn.2 (hc ▸ hb')
        exact q2 b (Or.inr (List.mem_cons_of_mem _ hb'))
          (fun hc => (List.mem_cons.mp hc).elim hbn hbs)
    obtain ⟨p1, p2, p3⟩ := ih2 hs2 hv2 hb2 hres2
    rw [dfsList]
    simp only [dif_pos hn, if_neg hr', if_neg hstk]
    refine ⟨?_, ?_, ?_⟩
    · intro x hx
      rcases List.mem_append.mp hx with hx' | hx'
      · obtain ⟨hxV, hxv, hxs⟩ := p1 x hx'
        refine ⟨hxV, fun hc => hxv (List.mem_append_right _ hc), hxs⟩
      · rcases List.mem_append.mp hx' with hx'' | hx''
        · obtain ⟨hxV, hxv, hxs⟩ := q1 x hx''
          exact ⟨hxV, fun hc => hxv (List.mem_cons_of_mem _ hc),
            fun hc => hxs (List.mem_cons_of_mem _ hc)⟩
        · rw [List.mem_singleton.mp hx'']
          exact ⟨hn.1, hn.2, hnstack⟩
    · intro b hb hbs
      rcases hb with hb | hb
      · rcases List.mem_append.mp hb with hb' | hb'
        · exact p2 b (Or.inl hb') hbs
        · exact p2 b (Or.inr (List.mem_append_left _ hb')) hbs
      · exact p2 b (Or.inr (List.mem_append_right _ hb)) hbs
    · intro m hm hmV
      rcases List.mem_cons.mp hm with rfl | hm'
      · exact ⟨hnstack, hcln⟩
      · exact p3 m hm' hmV
  | case5 visited stack n rest hn hstk =>
    intro hsv hvV hblack hres
    rw [dfsList] at hres
    simp only [dif_neg hn, if_pos hstk] at hres
    exact absurd hres (by simp)
  | case6 visited stack n rest hn hstk ih =>
    intro hsv hvV hblack hres
    have hres' : (dfsList V adj visited stack rest).1 = false := by
      rw [dfsList] at hres
      simp only [dif_neg hn, if_neg hstk] at hres
      exact hres
    obtain ⟨p1, p2, p3⟩ := ih hsv hvV hblack hres'
    rw [dfsList]
    simp only [dif_neg hn, if_neg hstk]
    refine ⟨p1, p2, ?_⟩
    intro m hm hmV
    rcases List.mem_cons.mp hm with rfl | hm'
    · have hmv : m ∈ visited := by
        by_contra hc
        exact hn ⟨hmV, hc⟩
      exact ⟨hstk, hblack m hmv hstk⟩
    · exact p3 m hm' hmV

theorem raise_if_has_cycles_loop_sound (V : List Nat) (adj : Nat → List Nat) :
    ∀ (roots visited : List Nat), (∀ r ∈ roots, r ∈ V) →
      raise_if_has_cycles_loop V adj roots visited = true → HasCycleIn adj V := by
  intro roots
  induction roots with
  | nil =>
    intro visited _ h
    simp [raise_if_has_cycles_loop] at h
  | cons r0 rest ih =>
    intro visited hroots h
    rw [raise_if_has_cycles_loop] at h
    by_cases hrv : r0 ∉ visited
    · rw [if_pos hrv] at h
      rcases hq : has_cycles_util V adj r0 visited [] with ⟨b, ex⟩
      rw [hq] at h
      cases b
      · exact ih (ex ++ visited) (fun x hx => hroots x (List.mem_cons_of_mem _ hx)) h
      · have h1 : (dfsList V adj (r0 :: visited) (r0 :: []) (adj r0)).1 = true := by
          have := congrArg Prod.fst hq
          simpa [has_cycles_util] using this
        refine dfsList_sound V adj (r0 :: visited) [r0] (adj r0)
          (List.chain'_singleton r0) ?_ ?_ h1
        · intro hd tl heq m hm
          injection heq with he1 _
          rw [← he1]
          exact hm
        · intro x hx
          rcases List.mem_cons.mp hx with rfl | hx'
          · exact hroots x (List.mem_cons_self _ _)
          · simp at hx'
    · rw [if_neg hrv] at h
      exact ih visited (fun x hx => hroots x (List.mem_cons_of_mem _ hx)) h

theorem raise_if_has_cycles_loop_complete (V : List Nat) (adj : Nat → List Nat)
    (hclosed : ∀ v ∈ V, ∀ m ∈ adj v, m ∈ V) :
    ∀ (roots visited : List Nat),
      (∀ x ∈ visited, x ∈ V) →
      (∀ b ∈ visited, Clean adj b) →
      (∀ r ∈ roots, r ∈ V) →
      raise_if_has_cycles_loop V adj roots visited = false →
      ∀ r ∈ roots, Clean adj r := by
  intro roots
  induction roots with
  | nil =>
    intro visited _ _ _ _ r hr
    simp at hr
  | cons r0 rest ih =>
    intro visited hvV hclean hroots h
    have hr0V : r0 ∈ V := hroots r0 (List.mem_cons_self _ _)
    rw [raise_if_has_cycles_loop] at h
    by_cases hrv : r0 ∉ visited
    · rw [if_pos hrv] at h
      rcases hq : has_cycles_util V adj r0 visited [] with ⟨b, ex⟩
      rw [hq] at h
      cases b
      ·
        have hr1 : (dfsList V adj (r0 :: visited) (r0 :: []) (adj r0)).1 = false := by
          have := congrArg Prod.fst hq
          simpa [has_cycles_util] using this
        have hexeq : ex = (dfsList V adj (r0 :: visited) (r0 :: []) (adj r0)).2 ++ [r0] := by
          have := congrArg Prod.snd hq
          simp only [has_cycles_util] at this
          exact this.symm
        have hs1 : ∀ x ∈ [r0], x ∈ r0 :: visited := by
          intro x hx
          rw [List.mem_singleton.mp hx]
          exact List.mem_cons_self _ _
        have hv1 : ∀ x ∈ r0 :: visited, x ∈ V := by
          intro x hx
          rcases List.mem_cons.mp hx with rfl | hx'
          · exact hr0V
          · exact hvV x hx'
        have hb1 : ∀ b ∈ r0 :: visited, b ∉ [r0] → Clean adj b := by
          intro b hb hbs
          rcases List.mem_cons.mp hb with rfl | hb'
          · exact absurd (List.mem_singleton_self _) hbs
          · exact hclean b hb'
        obtain ⟨q1, q2, q3⟩ := dfsList_complete V adj hclosed (r0 :: visited) [r0] (adj r0)
          hs1 hv1 hb1 hr1
        have hclr0 : Clean adj r0 :=
          clean_of_forall_clean (fun m hm => (q3 m hm (hclosed r0 hr0V m hm)).2)
        have hvV' : ∀ x ∈ ex ++ visited, x ∈ V := by
          intro x hx
          rcases List.mem_append.mp hx with hx' | hx'
          · rw [hexeq] at hx'
            rcases List.mem_append.mp hx' with hx'' | hx''
            · exact (q1 x hx'').1
            · rw [List.mem_singleton.mp hx'']
              exact hr0V
          · exact hvV x hx'
        have hclean' : ∀ x ∈ ex ++ visited, Clean adj x := by
          intro x hx
          rcases List.mem_append.mp hx with hx' | hx'
          · rw [hexeq] at hx'
            rcases List.mem_append.mp hx' with hx'' | hx''
            · exact q2 x (Or.inl hx'') (q1 x hx'').2.2
            · rw [List.mem_singleton.mp hx'']
              exact hclr0
          · exact hclean x hx'
        have hrec := ih (ex ++ visited) hvV' hclean'
          (fun x hx => hroots x (List.mem_cons_of_mem _ hx)) h
        intro r hr
        rcases List.mem_cons.mp hr with rfl | hr'
        · exact hclr0
        · exact hrec r hr'
      · exact absurd h (by simp)
    · rw [if_neg hrv] at h
      have hr0v : r0 ∈ visited := by
        by_contra hc
        exact hrv hc
      have hrec := ih visited hvV hclean
        (fun x hx => hroots x (List.mem_cons_of_mem _ hx)) h
      intro r hr
      rcases List.mem_cons.mp hr with rfl | hr'
      · exact hclean r hr0v
      · exact hrec r hr'

/-- DFS cycle-check correctness over the whole pipeline: provided every
neighbour of a `V`-node is again in `V`, the root loop reports a cycle iff the
graph truly has a directed cycle through a node of `V`. -/
theorem raise_if_has_cycles_loop_iff (V : List Nat) (adj : Nat → List Nat)
    (hclosed : ∀ v ∈ V, ∀ m ∈ adj v, m ∈ V) :
    (raise_if_has_cycles_loop V adj V [] = true ↔ HasCycleIn adj V) := by
  constructor
  · exact raise_if_has_cycles_loop_sound V adj V [] (fun _ hr => hr)
  · rintro ⟨v, hv, hcyc⟩
    by_contra hfalse
    have h : raise_if_has_cycles_loop V adj V [] = false := by
      cases hh : raise_if_has_cycles_loop V adj V []
      · rfl
      · exact absurd hh hfalse
    have hcl := raise_if_has_cycles_loop_complete V adj hclosed V []
      (by simp) (by simp) (fun _ hr => hr) h v hv
    exact not_cycle_of_clean hcl hcyc

/-! ### The adjacency view `adjOf` -/

theorem adjOf_ne {s : Store} {deps : List Nat} {opId : Option Nat} {v : Nat}
    (h : ¬ some v = opId) : adjOf s deps opId v = depsOf s v := by
  simp [adjOf, h]

theorem mem_adjOf {s : Store} {deps : List Nat} {opId : Option Nat} {v x : Nat} :
    x ∈ adjOf s deps opId v ↔ x ∈ depsOf s v ∨ (some v = opId ∧ x ∈ deps) := by
  unfold adjOf
  by_cases h : some v = opId
  · simp only [h, if_pos rfl] at *
    simp only [if_pos h, List.mem_append, List.mem_dedup, List.mem_filter,
      decide_eq_true_eq]
    constructor
    · rintro (hx | ⟨hx, _⟩)
      · exact Or.inl hx
      · exact Or.inr ⟨h, hx⟩
    · rintro (hx | ⟨_, hx⟩)
      · exact Or.inl hx
      · by_cases hd : x ∈ depsOf s v
        · exact Or.inl hd
        · exact Or.inr ⟨hx, hd⟩
  · simp [adjOf_ne h, h]

theorem adjOf_closed {s : Store} {deps : List Nat} {opId : Option Nat}
    (htgt : ∀ e ∈ s.edges, e.dependency ∈ s.operators)
    (hdeps : ∀ d ∈ deps, d ∈ s.operators) :
    ∀ v ∈ s.operators, ∀ m ∈ adjOf s deps opId v, m ∈ s.operators := by
  intro v _ m hm
  rcases mem_adjOf.mp hm with h | ⟨_, h⟩
  · obtain ⟨e, he, _, hd⟩ := mem_depsOf.mp h
    exact hd ▸ htgt e he
  · exact hdeps m h

/-- Correctness of `raise_if_has_cycles`: the request is rejected iff the
pipeline's stored graph, with the edited node's edge set replaced by the union
of its stored and requested targets, contains a directed cycle. -/
theorem raise_if_has_cycles_iff {s : Store} {opId : Option Nat} {deps : List Nat}
    (hclosed : ∀ v ∈ s.operators, ∀ m ∈ adjOf s deps opId v, m ∈ s.operators) :
    (raise_if_has_cycles s opId deps = true ↔
      HasCycleIn (adjOf s deps opId) s.operators) :=
  raise_if_has_cycles_loop_iff s.operators (adjOf s deps opId) hclosed

/-- The stored graph of the pipeline is acyclic (spec invariant I2). -/
def Acyclic (s : Store) : Prop := ¬ HasCycleIn (depsOf s) s.operators

/-- Helper to establish well-formedness of a concrete store by decidable
checks (the per-operator target uniqueness follows from pairwise edge
distinctness). -/
theorem tgt_nodup_of_pairwise {s : Store}
    (h : List.Pairwise
      (fun e1 e2 => e1.operator_id = e2.operator_id → e1.dependency ≠ e2.dependency)
      s.edges) :
    ∀ op, (depsOf s op).Nodup := by
  intro op
  unfold depsOf list_dependencies
  have hsub : List.Pairwise
      (fun e1 e2 => e1.operator_id = e2.operator_id → e1.dependency ≠ e2.dependency)
      (s.edges.filter (fun e => e.operator_id == op)) :=
    List.Pairwise.sublist (List.filter_sublist _) h
  have hsub2 : List.Pairwise (fun e1 e2 => e1.dependency ≠ e2.dependency)
      (s.edges.filter (fun e => e.operator_id == op)) := by
    refine hsub.imp_of_mem ?_
    intro a b ha hb hr
    have ha' : a.operator_id = op := by simpa using (List.mem_filter.mp ha).2
    have hb' : b.operator_id = op := by simpa using (List.mem_filter.mp hb).2
    exact hr (ha'.trans hb'.symm)
  exact List.pairwise_map.mpr hsub2

theorem WF_of_checks (s : Store)
    (h1 : ∀ o ∈ s.operators, o < s.nextId) (h2 : s.operators.Nodup)
    (h3 : ∀ e ∈ s.edges, e.uuid < s.nextId)
    (h4 : (s.edges.map (fun e => e.uuid)).Nodup)
    (h5 : ∀ e ∈ s.edges, e.operator_id ∈ s.operators)
    (h6 : ∀ e ∈ s.edges, e.dependency ∈ s.operators)
    (h7 : ∀ e ∈ s.edges, e.operator_id ≠ e.dependency)
    (h8 : List.Pairwise
      (fun e1 e2 => e1.operator_id = e2.operator_id → e1.dependency ≠ e2.dependency)
      s.edges) :
    WF s :=
  ⟨h1, h2, h3, h4, h5, h6, h7, tgt_nodup_of_pairwise h8⟩

/-- A pipeline whose own full-graph check (no overlay) passes is acyclic. -/
theorem acyclic_of_check_false {s : Store}
    (htgt : ∀ e ∈ s.edges, e.dependency ∈ s.operators)
    (h : raise_if_has_cycles s none [] = false) : Acyclic s := by
  intro hcyc
  have hfn : adjOf s [] none = depsOf s := funext (fun v => adjOf_ne (by simp))
  have hclosed : ∀ v ∈ s.operators, ∀ m ∈ adjOf s [] none v, m ∈ s.operators :=
    adjOf_closed htgt (by simp)
  have := (raise_if_has_cycles_iff hclosed).mpr (by rw [hfn]; exact hcyc)
  rw [h] at this
  exact absurd this (by simp)

/-- Overlay decomposition: any path of the stored graph augmented with the one
extra edge `A → B` either is a stored path, or splits at the new edge into a
stored prefix into `A` and a stored suffix out of `B`. -/
theorem transGen_overlay_decompose {adj adj' : Nat → List Nat} {A B : Nat}
    (hadj' : ∀ v x, x ∈ adj' v ↔ x ∈ adj v ∨ (v = A ∧ x = B)) :
    ∀ {x y : Nat}, Relation.TransGen (adjStep adj') x y →
      Relation.TransGen (adjStep adj) x y ∨
      (Relation.ReflTransGen (adjStep adj) x A ∧
       Relation.ReflTransGen (adjStep adj) B y) := by
  intro x y ht
  induction ht with
  | single hstep =>
    rcases (hadj' _ _).mp hstep with h | ⟨rfl, rfl⟩
    · exact Or.inl (Relation.TransGen.single h)
    · exact Or.inr ⟨Relation.ReflTransGen.refl, Relation.ReflTransGen.refl⟩
  | tail hxy hstep ih =>
    rcases (hadj' _ _).mp hstep with h | ⟨rfl, rfl⟩
    · rcases ih with ih | ⟨ih1, ih2⟩
      · exact Or.inl (ih.tail h)
      · exact Or.inr ⟨ih1, ih2.tail h⟩
    · rcases ih with ih | ⟨ih1, ih2⟩
      · exact Or.inr ⟨ih.to_reflTransGen, Relation.ReflTransGen.refl⟩
      · exact Or.inr ⟨ih1, Relation.ReflTransGen.refl⟩

/-- C3: in an acyclic pipeline containing the (distinct) operators `A` and
`B`, the cycle check for setting `A`'s dependency list to `[B]` reports a
cycle iff `B` already transitively depends on `A` through the stored edges. -/
theorem C3_cycle_check_iff_path (s : Store) (A B : Nat)
    (hwf : WF s) (hA : A ∈ s.operators) (hB : B ∈ s.operators) (hAB : A ≠ B)
    (hacyclic : Acyclic s) :
    (raise_if_has_cycles s (some A) [B] = true ↔
      Relation.TransGen (adjStep (depsOf s)) B A) := by
  have hclosed : ∀ v ∈ s.operators, ∀ m ∈ adjOf s [B] (some A) v, m ∈ s.operators :=
    adjOf_closed hwf.tgt_mem (by
      intro d hd
      rw [List.mem_singleton.mp hd]
      exact hB)
  rw [raise_if_has_cycles_iff hclosed]
  have hadj' : ∀ v x, x ∈ adjOf s [B] (some A) v ↔ x ∈ depsOf s v ∨ (v = A ∧ x = B) := by
    intro v x
    rw [mem_adjOf]
    simp [Option.some.injEq, eq_comm]
  constructor
  · rintro ⟨v, hv, hcyc⟩
    rcases transGen_overlay_decompose hadj' hcyc with h | ⟨h1, h2⟩
    · exact absurd ⟨v, hv, h⟩ hacyclic
    · have hBA : Relation.ReflTransGen (adjStep (depsOf s)) B A := h2.trans h1
      rcases (Relation.reflTransGen_iff_eq_or_transGen.mp hBA) with heq | ht
      · exact absurd heq hAB
      · exact ht
  · intro hBA
    refine ⟨A, hA, ?_⟩
    have hstep : adjStep (adjOf s [B] (some A)) A B := (hadj' A B).mpr (Or.inr ⟨rfl, rfl⟩)
    have hmono : Relation.TransGen (adjStep (adjOf s [B] (some A))) B A :=
      Relation.TransGen.mono (fun x y hxy => (hadj' x y).mpr (Or.inl hxy)) hBA
    exact Relation.TransGen.head hstep hmono

theorem C3_witness :
    WF { operators := [1, 2], edges := [⟨0, 2, 1⟩], nextId := 3, muts := 0 } ∧
    1 ∈ [1, 2] ∧ 2 ∈ [1, 2] ∧ (1 : Nat) ≠ 2 ∧
    Acyclic { operators := [1, 2], edges := [⟨0, 2, 1⟩], nextId := 3, muts := 0 } ∧
    (raise_if_has_cycles
        { operators := [1, 2], edges := [⟨0, 2, 1⟩], nextId := 3, muts := 0 } (some 1) [2] = true ↔
      Relation.TransGen
        (adjStep (depsOf { operators := [1, 2], edges := [⟨0, 2, 1⟩], nextId := 3, muts := 0 }))
        2 1) := by
  have hwf : WF { operators := [1, 2], edges := [⟨0, 2, 1⟩], nextId := 3, muts := 0 } :=
    WF_of_checks _ (by decide) (by decide) (by decide) (by decide) (by decide) (by decide)
      (by decide) (by decide)
  have hac : Acyclic { operators := [1, 2], edges := [⟨0, 2, 1⟩], nextId := 3, muts := 0 } := by
    apply acyclic_of_check_false (by decide)
    simp [raise_if_has_cycles, raise_if_has_cycles_loop, has_cycles_util, dfsList, adjOf,
      depsOf, list_dependencies]
  exact ⟨hwf, by decide, by decide, by decide, hac,
    C3_cycle_check_iff_path _ 1 2 hwf (by decide) (by decide) (by decide) hac⟩

/-- C6: the cycle detector evaluates the edited operator's outgoing edges as
the union of its stored edges and the hypothetical list; hence a cycle through
a stored edge `A → X` with `X` absent from the requested list is still
detected. -/
theorem C6_union_overlay_detects_stored_edge (s : Store) (A X : Nat) (l : List Nat)
    (hwf : WF s) (hA : A ∈ s.operators) (hl : ∀ d ∈ l, d ∈ s.operators)
    (hstored : X ∈ depsOf s A) (habsent : X ∉ l)
    (hpath : Relation.ReflTransGen (adjStep (depsOf s)) X A) :
    (∀ x, x ∈ adjOf s l (some A) A ↔ x ∈ depsOf s A ∨ x ∈ l) ∧
    raise_if_has_cycles s (some A) l = true := by
  constructor
  · intro x
    rw [mem_adjOf]
    simp
  · have hclosed : ∀ v ∈ s.operators, ∀ m ∈ adjOf s l (some A) v, m ∈ s.operators :=
      adjOf_closed hwf.tgt_mem hl
    rw [raise_if_has_cycles_iff hclosed]
    refine ⟨A, hA, ?_⟩
    have hstep : adjStep (adjOf s l (some A)) A X := mem_adjOf.mpr (Or.inl hstored)
    have hmono : Relation.ReflTransGen (adjStep (adjOf s l (some A))) X A :=
      Relation.ReflTransGen.mono (fun _ _ hxy => mem_adjOf.mpr (Or.inl hxy)) hpath
    exact Relation.TransGen.head' hstep hmono

theorem C6_witness :
    WF { operators := [1, 2], edges := [⟨0, 1, 2⟩, ⟨1, 2, 1⟩], nextId := 3, muts := 0 } ∧
    1 ∈ [1, 2] ∧ (∀ d ∈ ([] : List Nat), d ∈ [1, 2]) ∧
    2 ∈ depsOf { operators := [1, 2], edges := [⟨0, 1, 2⟩, ⟨1, 2, 1⟩], nextId := 3, muts := 0 } 1 ∧
    2 ∉ ([] : List Nat) ∧
    Relation.ReflTransGen
      (adjStep (depsOf { operators := [1, 2], edges := [⟨0, 1, 2⟩, ⟨1, 2, 1⟩], nextId := 3, muts := 0 }))
      2 1 ∧
    raise_if_has_cycles
      { operators := [1, 2], edges := [⟨0, 1, 2⟩, ⟨1, 2, 1⟩], nextId := 3, muts := 0 }
      (some 1) [] = true := by
  have hwf : WF { operators := [1, 2], edges := [⟨0, 1, 2⟩, ⟨1, 2, 1⟩], nextId := 3, muts := 0 } :=
    WF_of_checks _ (by decide) (by decide) (by decide) (by decide) (by decide) (by decide)
      (by decide) (by decide)
  have hpath : Relation.ReflTransGen
      (adjStep (depsOf { operators := [1, 2], edges := [⟨0, 1, 2⟩, ⟨1, 2, 1⟩], nextId := 3, muts := 0 }))
      2 1 :=
    Relation.ReflTransGen.single
      (show (1 : Nat) ∈ depsOf
        { operators := [1, 2], edges := [⟨0, 1, 2⟩, ⟨1, 2, 1⟩], nextId := 3, muts := 0 } 2
        by decide)
  exact ⟨hwf, by decide, by decide, by decide, by decide, hpath,
    (C6_union_overlay_detects_stored_edge _ 1 2 [] hwf (by decide) (by decide) (by decide)
      (by decide) hpath).2⟩

/-! ### The Status Deriver (`check_status`, operators.py lines 307-327) -/

/-- A value of the operator's parameter mapping. The source accepts str, int,
float, bool, list and dict values; `check_status` only compares each value
against the empty-string sentinel, so non-string values are kept opaque. -/
inductive ParamValue where
  | pstr (s : String)
  | pnum (n : Int)
  | pbool (b : Bool)
  | plist
  | pdict
deriving DecidableEq

/-- The task data `check_status` reads: its tags, and the names of its
parameter schema descriptors. `list_parameters` (parameters.py, not in src) is
modelled from the spec as the task's ordered list of parameter descriptor
names. -/
structure TaskInfo where
  tags : List String
  schema : List String
deriving DecidableEq

/-- `check_status` (operators.py lines 307-327): count the operator's
parameters whose value is not the empty string; a task without the `DATASETS`
tag is `Setted up` iff that count equals the number of schema parameters other
than `dataset`; a `DATASETS`-tagged task is `Setted up` iff exactly one
parameter is filled. -/
def check_status (parameters : List (String × ParamValue)) (task : TaskInfo) : String :=
  let op_params_keys :=
    (parameters.filter (fun kv => decide (kv.2 ≠ ParamValue.pstr ""))).map (fun kv => kv.1)
  let total_op_params := op_params_keys.length
  if "DATASETS" ∉ task.tags then
    let comp_params := task.schema.filter (fun name => decide (name ≠ "dataset"))
    let total_comp_params := comp_params.length
    if total_op_params = total_comp_params then "Setted up" else "Unset"
  else
    if total_op_params = 1 then "Setted up" else "Unset"

/-- C7: status derivation returns `Setted up` (Configured) iff — for a
`DATASETS`-tagged (data-source) task — exactly one parameter holds a
non-empty-string value, and otherwise iff the count of non-empty parameters
equals the number of schema descriptors excluding the `dataset` selector; in
every other case it returns `Unset` (Unconfigured). -/
theorem C7_check_status_configured_iff
    (parameters : List (String × ParamValue)) (task : TaskInfo) :
    (check_status parameters task = "Setted up" ↔
      (if "DATASETS" ∈ task.tags
       then (parameters.filter (fun kv => decide (kv.2 ≠ ParamValue.pstr ""))).length = 1
       else (parameters.filter (fun kv => decide (kv.2 ≠ ParamValue.pstr ""))).length
          = (task.schema.filter (fun name => decide (name ≠ "dataset"))).length)) ∧
    (check_status parameters task = "Setted up" ∨
     check_status parameters task = "Unset") := by
  constructor
  · simp only [check_status, List.length_map]
    by_cases ht : "DATASETS" ∈ task.tags
    · rw [if_neg (not_not_intro ht), if_pos ht]
      by_cases hc :
          (parameters.filter (fun kv => decide (kv.2 ≠ ParamValue.pstr ""))).length = 1
      · rw [if_pos hc]
        exact iff_of_true rfl hc
      · rw [if_neg hc]
        exact iff_of_false (by decide) hc
    · rw [if_pos ht, if_neg ht]
      by_cases hc :
          (parameters.filter (fun kv => decide (kv.2 ≠ ParamValue.pstr ""))).length
            = (task.schema.filter (fun name => decide (name ≠ "dataset"))).length
      · rw [if_pos hc]
        exact iff_of_true rfl hc
      · rw [if_neg hc]
        exact iff_of_false (by decide) hc
  · simp only [check_status, List.length_map]
    split_ifs <;> simp

/-! ### Dependency validation (`raise_if_dependencies_are_invalid`,
operators.py lines 234-259) -/

/-- The `dependencies` field of a request: either not a list (shape error) or
a list of operator ids. -/
inductive ReqDeps where
  | notAList
  | list (l : List Nat)
deriving DecidableEq

/-- Which check of `raise_if_dependencies_are_invalid` rejected the request.
All five are surfaced to the caller as `BadRequest`. -/
inductive DepErr where
  | shape
  | dup
  | missing
  | selfRef
  | cyclic
deriving DecidableEq

/-- The per-element scan of the dependency list (operators.py lines 251-257):
for each requested id, existence in the experiment is checked before
self-reference; the first offending element decides. The existence check
`raise_if_operator_does_not_exist` (utils.py, not in src) is modelled from the
spec as membership among the experiment's operators. -/
def scan_dependencies (s : Store) (operator_id : Option Nat) : List Nat → Option DepErr
  | [] => none
  | d :: rest =>
    if d ∉ s.operators then some DepErr.missing
    else if some d = operator_id then some DepErr.selfRef
    else scan_dependencies s operator_id rest

/-- `raise_if_dependencies_are_invalid` (operators.py lines 234-259), returning
which check rejected the request (`none` = accepted): shape
(`isinstance(dependencies, list)`), duplicates
(`len(dependencies) != len(set(dependencies))`), then the per-element
existence/self-reference scan, then the cycle check. -/
def raise_if_dependencies_are_invalid (s : Store) (dependencies : ReqDeps)
    (operator_id : Option Nat) : Option DepErr :=
  match dependencies with
  | ReqDeps.notAList => some DepErr.shape
  | ReqDeps.list l =>
    if l.dedup.length ≠ l.length then some DepErr.dup
    else
      match scan_dependencies s operator_id l with
      | some e => some e
      | none =>
        if raise_if_has_cycles s operator_id l then some DepErr.cyclic else none

theorem dedup_length_eq_iff {l : List Nat} : l.dedup.length = l.length ↔ l.Nodup := by
  constructor
  · intro h
    have hsub : List.Sublist l.dedup l := List.dedup_sublist l
    have := hsub.eq_of_length h
    rw [← this]
    exact List.nodup_dedup l
  · intro h
    rw [List.dedup_eq_self.mpr h]

theorem scan_dependencies_none_iff {s : Store} {opId : Option Nat} {l : List Nat} :
    scan_dependencies s opId l = none ↔
      ∀ d ∈ l, d ∈ s.operators ∧ some d ≠ opId := by
  induction l with
  | nil => simp [scan_dependencies]
  | cons d rest ih =>
    rw [scan_dependencies]
    by_cases h1 : d ∉ s.operators
    · simp only [if_pos h1]
      simp only [List.mem_cons]
      constructor
      · intro h
        exact absurd h (by simp)
      · intro h
        exact absurd (h d (Or.inl rfl)).1 h1
    · rw [if_neg h1]
      by_cases h2 : some d = opId
      · simp only [if_pos h2]
        constructor
        · intro h
          exact absurd h (by simp)
        · intro h
          exact absurd h2 (h d (List.mem_cons_self _ _)).2
      · rw [if_neg h2]
        rw [ih]
        constructor
        · intro h x hx
          rcases List.mem_cons.mp hx with rfl | hx'
          · exact ⟨not_not.mp h1, h2⟩
          · exact h x hx'
        · intro h x hx
          exact h x (List.mem_cons_of_mem _ hx)

theorem scan_dependencies_first {s : Store} {opId : Option Nat} :
    ∀ (l1 : List Nat) (d : Nat) (l2 : List Nat),
      (∀ x ∈ l1, x ∈ s.operators ∧ some x ≠ opId) →
      (d ∉ s.operators ∨ some d = opId) →
      scan_dependencies s opId (l1 ++ d :: l2) =
        some (if d ∉ s.operators then DepErr.missing else DepErr.selfRef) := by
  intro l1
  induction l1 with
  | nil =>
    intro d l2 _ hbad
    rw [List.nil_append, scan_dependencies]
    by_cases h1 : d ∉ s.operators
    · rw [if_pos h1, if_pos h1]
    · rw [if_neg h1, if_neg h1]
      rcases hbad with hb | hb
      · exact absurd hb h1
      · rw [if_pos hb]
  | cons x l1' ih =>
    intro d l2 hok hbad
    have hx := hok x (List.mem_cons_self _ _)
    rw [List.cons_append, scan_dependencies, if_neg (not_not_intro hx.1), if_neg hx.2]
    exact ih d l2 (fun y hy => hok y (List.mem_cons_of_mem _ hy)) hbad

/-- The validator accepts iff the request is a list without duplicates whose
entries all exist in the experiment, none of them is the operator itself, and
the overlay graph is acyclic. -/
theorem validator_none_iff {s : Store} {dependencies : ReqDeps}
    {operator_id : Option Nat} (htgt : ∀ e ∈ s.edges, e.dependency ∈ s.operators) :
    raise_if_dependencies_are_invalid s dependencies operator_id = none ↔
      ∃ l, dependencies = ReqDeps.list l ∧ l.Nodup ∧
        (∀ d ∈ l, d ∈ s.operators) ∧ (∀ d ∈ l, some d ≠ operator_id) ∧
        ¬ HasCycleIn (adjOf s l operator_id) s.operators := by
  constructor
  · intro h
    match dependencies with
    | ReqDeps.notAList =>
      rw [raise_if_dependencies_are_invalid] at h
      exact absurd h (by simp)
    | ReqDeps.list l =>
      rw [raise_if_dependencies_are_invalid] at h
      by_cases hdup : l.dedup.length ≠ l.length
      · rw [if_pos hdup] at h
        exact absurd h (by simp)
      · rw [if_neg hdup] at h
        have hnodup : l.Nodup := dedup_length_eq_iff.mp (not_not.mp hdup)
        rcases hscan : scan_dependencies s operator_id l with _ | e
        · rw [hscan] at h
          have hmem := scan_dependencies_none_iff.mp hscan
          have hclosed : ∀ v ∈ s.operators, ∀ m ∈ adjOf s l operator_id v,
              m ∈ s.operators :=
            adjOf_closed htgt (fun d hd2 => (hmem d hd2).1)
          by_cases hcy : raise_if_has_cycles s operator_id l
          · rw [if_pos hcy] at h
            exact absurd h (by simp)
          · refine ⟨l, rfl, hnodup, fun d hd2 => (hmem d hd2).1,
              fun d hd2 => (hmem d hd2).2, ?_⟩
            intro hcycle
            exact hcy ((raise_if_has_cycles_iff hclosed).mpr hcycle)
        · rw [hscan] at h
          exact absurd h (by simp)
  · rintro ⟨l, rfl, hnodup, hmem, hself, hnocycle⟩
    rw [raise_if_dependencies_are_invalid,
      if_neg (not_not_intro (dedup_length_eq_iff.mpr hnodup)),
      scan_dependencies_none_iff.mpr (fun d hd2 => ⟨hmem d hd2, hself d hd2⟩)]
    have hclosed : ∀ v ∈ s.operators, ∀ m ∈ adjOf s l operator_id v, m ∈ s.operators :=
      adjOf_closed htgt hmem
    have hcy : raise_if_has_cycles s operator_id l = false := by
      cases hh : raise_if_has_cycles s operator_id l
      · rfl
      · exact absurd ((raise_if_has_cycles_iff hclosed).mp hh) hnocycle
    rw [hcy]
    simp

/-- C8: the validator rejects a requested dependency list iff it is not a
list, has duplicate entries, references a nonexistent operator, contains the
operator's own id, or would introduce a cycle; and the logically distinct
checks run in the order shape → duplicates → existence → self-reference
(existence before self-reference on each element in turn) → cycle. -/
theorem C8_validator_conditions_and_order (s : Store) (dependencies : ReqDeps)
    (operator_id : Option Nat) (hwf : WF s) :
    (raise_if_dependencies_are_invalid s dependencies operator_id = none ↔
      ∃ l, dependencies = ReqDeps.list l ∧ l.Nodup ∧
        (∀ d ∈ l, d ∈ s.operators) ∧ (∀ d ∈ l, some d ≠ operator_id) ∧
        ¬ HasCycleIn (adjOf s l operator_id) s.operators) ∧
    (dependencies = ReqDeps.notAList →
      raise_if_dependencies_are_invalid s dependencies operator_id = some DepErr.shape) ∧
    (∀ l, dependencies = ReqDeps.list l → ¬ l.Nodup →
      raise_if_dependencies_are_invalid s dependencies operator_id = some DepErr.dup) ∧
    (∀ l, dependencies = ReqDeps.list l → l.Nodup →
      ∀ l1 d l2, l = l1 ++ d :: l2 →
        (∀ x ∈ l1, x ∈ s.operators ∧ some x ≠ operator_id) →
        (d ∉ s.operators ∨ some d = operator_id) →
        raise_if_dependencies_are_invalid s dependencies operator_id =
          some (if d ∉ s.operators then DepErr.missing else DepErr.selfRef)) ∧
    (∀ l, dependencies = ReqDeps.list l → l.Nodup →
      (∀ d ∈ l, d ∈ s.operators) → (∀ d ∈ l, some d ≠ operator_id) →
      (raise_if_dependencies_are_invalid s dependencies operator_id = some DepErr.cyclic ↔
        HasCycleIn (adjOf s l operator_id) s.operators)) := by
  refine ⟨validator_none_iff hwf.tgt_mem, ?_, ?_, ?_, ?_⟩
  · intro hd
    rw [hd, raise_if_dependencies_are_invalid]
  · intro l hd hdup
    rw [hd, raise_if_dependencies_are_invalid,
      if_pos (fun hc => hdup (dedup_length_eq_iff.mp hc))]
  · intro l hd hnodup l1 d l2 hsplit hok hbad
    rw [hd, raise_if_dependencies_are_invalid,
      if_neg (not_not_intro (dedup_length_eq_iff.mpr hnodup)), hsplit,
      scan_dependencies_first l1 d l2 hok hbad]
  · intro l hd hnodup hmem hself
    rw [hd, raise_if_dependencies_are_invalid,
      if_neg (not_not_intro (dedup_length_eq_iff.mpr hnodup)),
      scan_dependencies_none_iff.mpr (fun d hd2 => ⟨hmem d hd2, hself d hd2⟩)]
    have hclosed : ∀ v ∈ s.operators, ∀ m ∈ adjOf s l operator_id v, m ∈ s.operators :=
      adjOf_closed hwf.tgt_mem hmem
    constructor
    · intro h
      by_cases hcy : raise_if_has_cycles s operator_id l
      · exact (raise_if_has_cycles_iff hclosed).mp hcy
      · rw [if_neg hcy] at h
        exact absurd h (by simp)
    · intro h
      rw [if_pos ((raise_if_has_cycles_iff hclosed).mpr h)]

theorem C8_witness :
    WF { operators := [1, 2], edges := [], nextId := 3, muts := 0 } ∧
    raise_if_dependencies_are_invalid
      { operators := [1, 2], edges := [], nextId := 3, muts := 0 }
      (ReqDeps.list [2, 2]) (some 1) = some DepErr.dup := by
  have hwf : WF { operators := [1, 2], edges := [], nextId := 3, muts := 0 } :=
    WF_no_edges _ 3 0 (by decide) (by decide)
  exact ⟨hwf,
    (C8_validator_conditions_and_order _ (ReqDeps.list [2, 2]) (some 1) hwf).2.2.1
      [2, 2] rfl (by decide)⟩

/-! ### The Operator Lifecycle Orchestrator (create / update / delete),
restricted to its Graph Store footprint -/

/-- The outcome of a lifecycle request: `ok` with the resulting store, or
`err` with the store as the failed call leaves it behind (all raised errors
become NotFound/BadRequest at the boundary; nothing is rolled back). -/
inductive OpResult where
  | ok (s : Store)
  | err (s : Store)
deriving DecidableEq

/-- `create_operator` (operators.py lines 47-103), restricted to its Graph
Store footprint. `pre_ok` abstracts the validations that precede any mutation
and read no graph state: project/experiment existence, `taskId` shape and
existence, and parameter validation (lines 66-80). The new operator's uuid
(`uuid_alpha()`, fresh and unique) is modelled by the store's freshness
counter. After the node row is inserted the requested dependencies are
synchronized; `check_status` reads no graph state. The validator runs with
`operator_id=None`, matching the source's call. The `(none, notAList)` branch
is unreachable because the shape check already rejected. -/
def create_operator (s : Store) (pre_ok : Bool) (dependencies : ReqDeps) : OpResult :=
  if pre_ok = false then OpResult.err s
  else
    match raise_if_dependencies_are_invalid s dependencies none, dependencies with
    | some _, _ => OpResult.err s
    | none, ReqDeps.notAList => OpResult.err s
    | none, ReqDeps.list l =>
      let new_uuid := s.nextId
      let s1 : Store := { s with operators := s.operators ++ [new_uuid],
                                 nextId := s.nextId + 1 }
      OpResult.ok (update_dependencies s1 new_uuid l)

/-- `update_operator` (operators.py lines 106-145), restricted to its Graph
Store footprint. `pre_ok` abstracts project/experiment existence and parameter
validation; `field_update_fails` abstracts whether the final
`db_session.query(Operator).filter_by(uuid=uuid).update(data)` raises
(`InvalidRequestError`/`ProgrammingError`, translated to `BadRequest`). A
supplied dependency list is validated and synchronized *before* that field
update runs (lines 130-141). -/
def update_operator (s : Store) (uuid : Nat) (pre_ok : Bool)
    (dependencies : Option ReqDeps) (field_update_fails : Bool) : OpResult :=
  if uuid ∉ s.operators then OpResult.err s
  else if pre_ok = false then OpResult.err s
  else
    match dependencies with
    | none => if field_update_fails then OpResult.err s else OpResult.ok s
    | some ds =>
      match raise_if_dependencies_are_invalid s ds (some uuid), ds with
      | some _, _ => OpResult.err s
      | none, ReqDeps.notAList => OpResult.err s
      | none, ReqDeps.list l =>
        let s1 := update_dependencies s uuid l
        if field_update_fails then OpResult.err s1 else OpResult.ok s1

/-- One iteration of the consumer loop of `delete_dependencies` (operators.py
lines 208-215): splice the deleted node `operator_id` out of consumer `op`'s
dependency list, replacing it with the deleted node's own former dependencies
(`dependencies`). `new_dependencies.remove(operator_id)` is Python's
first-occurrence removal; it raises `ValueError` when the id is absent
(modelled as `none`; in well-formed states the consumer depends on the deleted
node, so the id is present). -/
def splice_consumer (operator_id : Nat) (dependencies : List Nat) (s : Store)
    (op : Nat) : Option Store :=
  let op_dependencies := depsOf s op
  let new_dependencies :=
    dependencies ++ (op_dependencies.filter (fun d => decide (d ∉ dependencies))).dedup
  if operator_id ∈ new_dependencies then
    some (update_dependencies s op (new_dependencies.erase operator_id))
  else none

/-- `delete_dependencies` (operators.py lines 199-217): splice every consumer
of `operator_id` past the deleted node, then synchronize the node's own edge
set to empty. -/
def delete_dependencies (s : Store) (operator_id : Nat) (dependencies : List Nat) :
    Option Store := do
  let s' ← (list_next_operators s operator_id).foldlM
    (fun acc op => splice_consumer operator_id dependencies acc op) s
  some (update_dependencies s' operator_id [])

/-- `delete_operator` (operators.py lines 148-173), restricted to its Graph
Store footprint: look the operator up (NotFound otherwise), redistribute its
dependency edges, then delete the node row. -/
def delete_operator (s : Store) (uuid : Nat) : Option Store :=
  if uuid ∉ s.operators then none
  else
    match delete_dependencies s uuid (depsOf s uuid) with
    | none => none
    | some s' => some { s' with operators := s'.operators.erase uuid }

/-- C2 as stated is false on the code: `update_operator` synchronizes a
supplied dependency list before the storage-layer field update, so when that
update fails the error reaches the caller with the edge writes already
committed. Concretely: operators 1 and 2, no edges; updating operator 1 with
dependencies `[2]` and a failing field update returns the error with the edge
`1 → 2` present in the store. -/
theorem C2_counterexample :
    update_operator { operators := [1, 2], edges := [], nextId := 3, muts := 0 }
        1 true (some (ReqDeps.list [2])) true =
      OpResult.err { operators := [1, 2], edges := [⟨3, 1, 2⟩], nextId := 4, muts := 1 } ∧
    ({ operators := [1, 2], edges := [⟨3, 1, 2⟩], nextId := 4, muts := 1 } : Store).edges ≠
      ({ operators := [1, 2], edges := [], nextId := 3, muts := 0 } : Store).edges := by
  constructor
  · have hval : raise_if_dependencies_are_invalid
        { operators := [1, 2], edges := [], nextId := 3, muts := 0 }
        (ReqDeps.list [2]) (some 1) = none := by
      rw [raise_if_dependencies_are_invalid]
      have hcy : raise_if_has_cycles
          { operators := [1, 2], edges := [], nextId := 3, muts := 0 } (some 1) [2] = false := by
        simp [raise_if_has_cycles, raise_if_has_cycles_loop, has_cycles_util, dfsList,
          adjOf, depsOf, list_dependencies]
      rw [hcy]
      simp [scan_dependencies]
    simp only [update_operator, hval]
    norm_num
    decide
  · decide

/-- C2 amended: every failing `create_operator` call leaves the Graph Store
unchanged, and so does every failing `update_operator` call *except* a
storage-layer field-update failure occurring after a supplied dependency list
was accepted — there the store is exactly the synchronized store. -/
theorem C2_amended_no_partial_writes (s : Store) (pre : Bool) (ds : ReqDeps)
    (uuid : Nat) (dsu : Option ReqDeps) (ffail : Bool) :
    (∀ s', create_operator s pre ds = OpResult.err s' → s' = s) ∧
    (∀ s', update_operator s uuid pre dsu ffail = OpResult.err s' →
      s' = s ∨ (ffail = true ∧ ∃ l, dsu = some (ReqDeps.list l) ∧
        raise_if_dependencies_are_invalid s (ReqDeps.list l) (some uuid) = none ∧
        s' = update_dependencies s uuid l)) := by
  constructor
  · intro s' h
    rw [create_operator.eq_def] at h
    by_cases hpre : pre = false
    · rw [if_pos hpre] at h
      cases h
      rfl
    · rw [if_neg hpre] at h
      cases ds with
      | notAList =>
        rcases hv : raise_if_dependencies_are_invalid s ReqDeps.notAList none with _ | e <;>
          rw [hv] at h <;> cases h <;> rfl
      | list l =>
        rcases hv : raise_if_dependencies_are_invalid s (ReqDeps.list l) none with _ | e
        · rw [hv] at h
          cases h
        · rw [hv] at h
          cases h
          rfl
  · intro s' h
    rw [update_operator.eq_def] at h
    by_cases hu : uuid ∉ s.operators
    · rw [if_pos hu] at h
      cases h
      exact Or.inl rfl
    · rw [if_neg hu] at h
      by_cases hpre : pre = false
      · rw [if_pos hpre] at h
        cases h
        exact Or.inl rfl
      · rw [if_neg hpre] at h
        cases dsu with
        | none =>
          dsimp only at h
          by_cases hf : ffail = true
          · rw [if_pos hf] at h
            cases h
            exact Or.inl rfl
          · rw [if_neg hf] at h
            cases h
        | some ds2 =>
          dsimp only at h
          cases ds2 with
          | notAList =>
            rcases hv : raise_if_dependencies_are_invalid s ReqDeps.notAList (some uuid)
                with _ | e <;>
              rw [hv] at h <;> cases h <;> exact Or.inl rfl
          | list l =>
            rcases hv : raise_if_dependencies_are_invalid s (ReqDeps.list l) (some uuid)
                with _ | e
            · rw [hv] at h
              simp only at h
              by_cases hf : ffail = true
              · rw [if_pos hf] at h
                cases h
                exact Or.inr ⟨hf, l, rfl, hv, rfl⟩
              · rw [if_neg hf] at h
                cases h
            · rw [hv] at h
              cases h
              exact Or.inl rfl

/-! ### Deletion splices consumers past the removed node -/

theorem mem_list_next_operators {s : Store} {N q : Nat} :
    q ∈ list_next_operators s N ↔ N ∈ depsOf s q := by
  simp only [list_next_operators, List.mem_map, List.mem_filter, beq_iff_eq, mem_depsOf]
  constructor
  · rintro ⟨e, ⟨he, hd⟩, hop⟩
    exact ⟨e, he, hop, hd⟩
  · rintro ⟨e, he, hop, hd⟩
    exact ⟨e, ⟨he, hd⟩, hop⟩

theorem list_next_operators_nodup {s : Store} (htgt : ∀ op, (depsOf s op).Nodup)
    (N : Nat) : (list_next_operators s N).Nodup := by
  rw [List.nodup_iff_count_le_one]
  intro q
  have h1 : List.count q (list_next_operators s N)
      = List.countP (fun e => e.operator_id == q && e.dependency == N) s.edges := by
    rw [list_next_operators, List.count_eq_countP, List.countP_map, List.countP_filter]
    apply List.countP_congr
    intro e _
    simp [Function.comp, Bool.and_comm]
  have h2 : List.count N (depsOf s q)
      = List.countP (fun e => e.operator_id == q && e.dependency == N) s.edges := by
    rw [depsOf, list_dependencies, List.count_eq_countP, List.countP_map, List.countP_filter]
    apply List.countP_congr
    intro e _
    simp [Function.comp, Bool.and_comm]
  rw [h1, ← h2]
  exact List.nodup_iff_count_le_one.mp (htgt q) N

/-- The list a consumer is synchronized to by `splice_consumer`, and its
basic properties: membership is "in the deleted node's former dependencies or
in the consumer's former dependencies, and not the deleted node", it has no
duplicates, and the deleted node's id occurs in the pre-erase list. -/
theorem spliced_list_spec (operator_id : Nat) (dependencies op_dependencies : List Nat)
    (hdn : dependencies.Nodup) (hNdep : operator_id ∉ dependencies)
    (hNop : operator_id ∈ op_dependencies) :
    operator_id ∈
      dependencies ++ (op_dependencies.filter (fun d => decide (d ∉ dependencies))).dedup ∧
    ((dependencies ++ (op_dependencies.filter
        (fun d => decide (d ∉ dependencies))).dedup).erase operator_id).Nodup ∧
    (∀ x, x ∈ (dependencies ++ (op_dependencies.filter
        (fun d => decide (d ∉ dependencies))).dedup).erase operator_id ↔
      ((x ∈ dependencies ∨ x ∈ op_dependencies) ∧ x ≠ operator_id)) := by
  have hmemN : operator_id ∈
      dependencies ++ (op_dependencies.filter (fun d => decide (d ∉ dependencies))).dedup := by
    apply List.mem_append_right
    rw [List.mem_dedup, List.mem_filter]
    exact ⟨hNop, by simpa using hNdep⟩
  have hnodup : (dependencies ++ (op_dependencies.filter
      (fun d => decide (d ∉ dependencies))).dedup).Nodup := by
    apply List.Nodup.append hdn (List.nodup_dedup _)
    intro x hx1 hx2
    rw [List.mem_dedup, List.mem_filter] at hx2
    exact absurd hx1 (by simpa using hx2.2)
  have hmem : ∀ x, x ∈ dependencies ++ (op_dependencies.filter
      (fun d => decide (d ∉ dependencies))).dedup ↔
      (x ∈ dependencies ∨ x ∈ op_dependencies) := by
    intro x
    simp only [List.mem_append, List.mem_dedup, List.mem_filter, decide_eq_true_eq]
    constructor
    · rintro (hx | ⟨hx, _⟩)
      · exact Or.inl hx
      · exact Or.inr hx
    · rintro (hx | hx)
      · exact Or.inl hx
      · by_cases hd : x ∈ dependencies
        · exact Or.inl hd
        · exact Or.inr ⟨hx, hd⟩
  refine ⟨hmemN, hnodup.erase _, ?_⟩
  intro x
  rw [hnodup.mem_erase_iff, hmem x]
  tauto

/-- The consumer loop of `delete_dependencies`: over a well-formed store, for
distinct consumers of the deleted node `N` (each depending on `N` and, by
acyclicity, not among `N`'s own dependencies), the loop succeeds, rewires
exactly the consumers to the spliced sets, preserves well-formedness and
leaves every other operator's edge set untouched. -/
theorem splice_fold_spec (N : Nat) (Ndeps : List Nat)
    (hNdeps_nodup : Ndeps.Nodup) (hNNdeps : N ∉ Ndeps) :
    ∀ (cs : List Nat) (s : Store),
      WF s →
      (∀ d ∈ Ndeps, d ∈ s.operators) →
      cs.Nodup →
      (∀ c ∈ cs, c ∈ s.operators ∧ c ≠ N ∧ N ∈ depsOf s c ∧ c ∉ Ndeps ∧ c ∉ depsOf s c) →
      ∃ s', cs.foldlM (fun acc op => splice_consumer N Ndeps acc op) s = some s' ∧
        s'.operators = s.operators ∧
        WF s' ∧
        (∀ q, q ∉ cs → depsOf s' q = depsOf s q) ∧
        (∀ c ∈ cs, ∀ x, x ∈ depsOf s' c ↔ ((x ∈ Ndeps ∨ x ∈ depsOf s c) ∧ x ≠ N)) := by
  intro cs
  induction cs with
  | nil =>
    intro s hwf _ _ _
    exact ⟨s, rfl, rfl, hwf, fun q _ => rfl, by simp⟩
  | cons c cs' ih =>
    intro s hwf hNd hnodup hcs
    obtain ⟨hcop, hcN, hcdep, hcNdeps, hcself⟩ := hcs c (List.mem_cons_self _ _)
    obtain ⟨hmemN, hLnodup, hLmem⟩ :=
      spliced_list_spec N Ndeps (depsOf s c) hNdeps_nodup hNNdeps hcdep
    have hLsub : ∀ x ∈ (Ndeps ++ ((depsOf s c).filter
        (fun d => decide (d ∉ Ndeps))).dedup).erase N, x ∈ s.operators := by
      intro x hx
      rcases ((hLmem x).mp hx).1 with hx' | hx'
      · exact hNd x hx'
      · obtain ⟨e, he, _, hd⟩ := mem_depsOf.mp hx'
        exact hd ▸ hwf.tgt_mem e he
    have hcL : c ∉ (Ndeps ++ ((depsOf s c).filter
        (fun d => decide (d ∉ Ndeps))).dedup).erase N := by
      intro hc
      rcases ((hLmem c).mp hc).1 with hc' | hc'
      · exact hcNdeps hc'
      · exact hcself hc'
    have hstep : splice_consumer N Ndeps s c
        = some (update_dependencies s c ((Ndeps ++ ((depsOf s c).filter
            (fun d => decide (d ∉ Ndeps))).dedup).erase N)) := by
      rw [splice_consumer]
      rw [if_pos hmemN]
    have hwf1 : WF (update_dependencies s c ((Ndeps ++ ((depsOf s c).filter
        (fun d => decide (d ∉ Ndeps))).dedup).erase N)) :=
      WF_update_dependencies hwf hcop hLsub hcL hLnodup
    have hops1 : (update_dependencies s c ((Ndeps ++ ((depsOf s c).filter
        (fun d => decide (d ∉ Ndeps))).dedup).erase N)).operators = s.operators :=
      update_dependencies_operators s c _
    have hframe1 : ∀ q, q ≠ c → depsOf (update_dependencies s c ((Ndeps ++
        ((depsOf s c).filter (fun d => decide (d ∉ Ndeps))).dedup).erase N)) q
        = depsOf s q :=
      fun q hq => depsOf_update_frame _ hq hwf.uuid_lt hwf.uuid_nodup (hwf.tgt_nodup c)
    have hself1 : ∀ x, x ∈ depsOf (update_dependencies s c ((Ndeps ++
        ((depsOf s c).filter (fun d => decide (d ∉ Ndeps))).dedup).erase N)) c ↔
        x ∈ (Ndeps ++ ((depsOf s c).filter
          (fun d => decide (d ∉ Ndeps))).dedup).erase N :=
      fun _ => mem_depsOf_update_self hwf.uuid_lt hwf.uuid_nodup (hwf.tgt_nodup c)
    have hcnotin : c ∉ cs' := (List.nodup_cons.mp hnodup).1
    obtain ⟨s', hfold, hops', hwf', hframe', hmem'⟩ := ih (update_dependencies s c
        ((Ndeps ++ ((depsOf s c).filter (fun d => decide (d ∉ Ndeps))).dedup).erase N))
      hwf1
      (by rw [hops1]; exact hNd)
      (List.nodup_cons.mp hnodup).2
      (by
        intro c' hc'
        have hcc' : c' ≠ c := fun hq => hcnotin (hq ▸ hc')
        obtain ⟨h1, h2, h3, h4, h5⟩ := hcs c' (List.mem_cons_of_mem _ hc')
        rw [hops1]
        refine ⟨h1, h2, ?_, h4, ?_⟩
        · rw [hframe1 c' hcc']
          exact h3
        · rw [hframe1 c' hcc']
          exact h5)
    refine ⟨s', ?_, by rw [hops', hops1], hwf', ?_, ?_⟩
    · rw [List.foldlM_cons, hstep]
      exact hfold
    · intro q hq
      have hq1 : q ≠ c := fun h => hq (h ▸ List.mem_cons_self _ _)
      have hq2 : q ∉ cs' := fun h => hq (List.mem_cons_of_mem _ h)
      rw [hframe' q hq2, hframe1 q hq1]
    · intro c0 hc0 x
      rcases List.mem_cons.mp hc0 with rfl | hc0'
      · rw [hframe' c0 hcnotin, hself1 x, hLmem x]
      · have hcc : c0 ≠ c := fun hq => hcnotin (hq ▸ hc0')
        rw [hmem' c0 hc0' x, hframe1 c0 hcc]

theorem consumer_facts {s : Store} (hwf : WF s) (hAc : Acyclic s) (N : Nat) :
    ∀ c ∈ list_next_operators s N,
      c ∈ s.operators ∧ c ≠ N ∧ N ∈ depsOf s c ∧ c ∉ depsOf s N ∧ c ∉ depsOf s c := by
  intro c hc
  have hdep : N ∈ depsOf s c := mem_list_next_operators.mp hc
  obtain ⟨e, he, hop, hd⟩ := mem_depsOf.mp hdep
  have hcop : c ∈ s.operators := hop ▸ hwf.src_mem e he
  have hcN : c ≠ N := by
    intro h
    subst h
    exact hwf.no_self e he (hop.trans hd.symm)
  have hcself : c ∉ depsOf s c := by
    intro h
    obtain ⟨e', he', hop', hd'⟩ := mem_depsOf.mp h
    exact hwf.no_self e' he' (hop'.trans hd'.symm)
  have hcNdeps : c ∉ depsOf s N := by
    intro h
    exact hAc ⟨c, hcop, Relation.TransGen.head
      (show adjStep (depsOf s) c N from hdep)
      (Relation.TransGen.single (show adjStep (depsOf s) N c from h))⟩
  exact ⟨hcop, hcN, hdep, hcNdeps, hcself⟩

theorem not_self_dep {s : Store} (hwf : WF s) (q : Nat) : q ∉ depsOf s q := by
  intro h
  obtain ⟨e, he, hop, hd⟩ := mem_depsOf.mp h
  exact hwf.no_self e he (hop.trans hd.symm)

/-- Full effect of `delete_dependencies` on a well-formed acyclic pipeline:
it succeeds, every consumer of the deleted node is rewired to the spliced set,
everyone else keeps their edges, the node's own edge set becomes empty, and
no edge references the node any more. -/
theorem delete_dependencies_spec {s : Store} (N : Nat) (hwf : WF s)
    (hN : N ∈ s.operators) (hAc : Acyclic s) :
    ∃ s', delete_dependencies s N (depsOf s N) = some s' ∧
      s'.operators = s.operators ∧ WF s' ∧
      depsOf s' N = [] ∧
      (∀ c, N ∈ depsOf s c →
        ∀ x, x ∈ depsOf s' c ↔ ((x ∈ depsOf s N ∨ x ∈ depsOf s c) ∧ x ≠ N)) ∧
      (∀ q, q ≠ N → N ∉ depsOf s q → depsOf s' q = depsOf s q) ∧
      (∀ e ∈ s'.edges, e.operator_id ≠ N ∧ e.dependency ≠ N) := by
  have hNnodup := hwf.tgt_nodup N
  have hNself : N ∉ depsOf s N := not_self_dep hwf N
  have hNd_sub : ∀ d ∈ depsOf s N, d ∈ s.operators := by
    intro d hd
    obtain ⟨e, he, _, hdd⟩ := mem_depsOf.mp hd
    exact hdd ▸ hwf.tgt_mem e he
  obtain ⟨s'', hfold, hops'', hwf'', hframe'', hmem''⟩ :=
    splice_fold_spec N (depsOf s N) hNnodup hNself (list_next_operators s N) s hwf
      hNd_sub (list_next_operators_nodup hwf.tgt_nodup N) (consumer_facts hwf hAc N)
  have hwfF : WF (update_dependencies s'' N []) :=
    WF_update_dependencies hwf'' (by rw [hops'']; exact hN) (by simp) (by simp)
      List.nodup_nil
  have hopsF := update_dependencies_operators s'' N []
  have hNF : depsOf (update_dependencies s'' N []) N = [] := by
    rw [List.eq_nil_iff_forall_not_mem]
    intro x hx
    have := (@mem_depsOf_update_self s'' N [] hwf''.uuid_lt hwf''.uuid_nodup
      (hwf''.tgt_nodup N) x).mp hx
    simp at this
  have hframeF : ∀ q, q ≠ N → depsOf (update_dependencies s'' N []) q = depsOf s'' q :=
    fun _ hq => depsOf_update_frame [] hq hwf''.uuid_lt hwf''.uuid_nodup
      (hwf''.tgt_nodup N)
  refine ⟨update_dependencies s'' N [], ?_, by rw [hopsF, hops''], hwfF, hNF,
    ?_, ?_, ?_⟩
  · rw [delete_dependencies, hfold]
    rfl
  · intro c hcdep x
    have hcN : c ≠ N := by
      intro h
      subst h
      exact hNself hcdep
    rw [hframeF c hcN]
    exact hmem'' c (mem_list_next_operators.mpr hcdep) x
  · intro q hqN hqdep
    rw [hframeF q hqN, hframe'' q (fun hq => hqdep (mem_list_next_operators.mp hq))]
  · intro e he
    constructor
    · intro hop
      have hmem : e.dependency ∈ depsOf (update_dependencies s'' N []) N :=
        mem_depsOf.mpr ⟨e, he, hop, rfl⟩
      rw [hNF] at hmem
      simp at hmem
    · intro hdep
      have hqdep : N ∈ depsOf (update_dependencies s'' N []) e.operator_id :=
        mem_depsOf.mpr ⟨e, he, rfl, hdep⟩
      by_cases hqN : e.operator_id = N
      · rw [hqN, hNF] at hqdep
        simp at hqdep
      · rw [hframeF _ hqN] at hqdep
        by_cases hqc : N ∈ depsOf s e.operator_id
        · have := (hmem'' _ (mem_list_next_operators.mpr hqc) N).mp hqdep
          exact this.2 rfl
        · rw [hframe'' _ (fun hq => hqc (mem_list_next_operators.mp hq))] at hqdep
          exact hqc hqdep

/-- C4: deleting a node `N` splices it out: afterwards `N` is in no operator
list and no dependency edge, each consumer's new dependency set is the union
of `N`'s former dependencies and the consumer's former dependencies, minus
duplicates, minus `N`'s id; in particular a consumer `C` with `C → N → P`
depends directly on `P` afterwards. -/
theorem C4_delete_splices_consumers (s : Store) (N : Nat)
    (hwf : WF s) (hN : N ∈ s.operators) (hAc : Acyclic s) :
    ∃ s', delete_operator s N = some s' ∧
      N ∉ s'.operators ∧
      (∀ e ∈ s'.edges, e.operator_id ≠ N ∧ e.dependency ≠ N) ∧
      (∀ c, N ∈ depsOf s c →
        (∀ x, x ∈ depsOf s' c ↔ ((x ∈ depsOf s N ∨ x ∈ depsOf s c) ∧ x ≠ N)) ∧
        (depsOf s' c).Nodup) ∧
      (∀ C P, N ∈ depsOf s C → P ∈ depsOf s N → P ∈ depsOf s' C) := by
  obtain ⟨s1, hdel, hops1, hwf1, hN1, hcons, hframe, hnoedge⟩ :=
    delete_dependencies_spec N hwf hN hAc
  refine ⟨{ s1 with operators := s1.operators.erase N }, ?_, ?_, hnoedge, ?_, ?_⟩
  · rw [delete_operator, if_neg (not_not_intro hN), hdel]
  · intro hc
    exact absurd ((hwf1.ops_nodup.mem_erase_iff).mp hc).1 (by simp)
  · intro c hcdep
    exact ⟨hcons c hcdep, hwf1.tgt_nodup c⟩
  · intro C P hC hP
    have hPmem : P ∈ depsOf s1 C := by
      rw [hcons C hC P]
      refine ⟨Or.inl hP, ?_⟩
      intro hPN
      subst hPN
      exact not_self_dep hwf P hP
    exact hPmem

theorem C4_witness :
    WF { operators := [1, 2, 3], edges := [⟨0, 2, 1⟩, ⟨1, 3, 2⟩], nextId := 4, muts := 0 } ∧
    2 ∈ [1, 2, 3] ∧
    Acyclic { operators := [1, 2, 3], edges := [⟨0, 2, 1⟩, ⟨1, 3, 2⟩], nextId := 4, muts := 0 } ∧
    (∃ s', delete_operator
        { operators := [1, 2, 3], edges := [⟨0, 2, 1⟩, ⟨1, 3, 2⟩], nextId := 4, muts := 0 } 2
        = some s' ∧
      2 ∉ s'.operators ∧
      (∀ e ∈ s'.edges, e.operator_id ≠ 2 ∧ e.dependency ≠ 2) ∧
      1 ∈ depsOf s' 3) := by
  have hwf : WF { operators := [1, 2, 3], edges := [⟨0, 2, 1⟩, ⟨1, 3, 2⟩], nextId := 4, muts := 0 } :=
    WF_of_checks _ (by decide) (by decide) (by decide) (by decide) (by decide) (by decide)
      (by decide) (by decide)
  have hac : Acyclic { operators := [1, 2, 3], edges := [⟨0, 2, 1⟩, ⟨1, 3, 2⟩], nextId := 4, muts := 0 } := by
    apply acyclic_of_check_false (by decide)
    simp [raise_if_has_cycles, raise_if_has_cycles_loop, has_cycles_util, dfsList, adjOf,
      depsOf, list_dependencies]
  obtain ⟨s', h1, h2, h3, _, h5⟩ :=
    C4_delete_splices_consumers _ 2 hwf (by decide) hac
  exact ⟨hwf, by decide, hac, s', h1, h2, h3, h5 3 1 (by decide) (by decide)⟩

/-! ### C1: every accepted lifecycle sequence keeps the pipeline acyclic -/

/-- One lifecycle request against the pipeline, with the non-graph validation
outcomes (`pre`, `ffail`) abstracted as inputs. -/
inductive AOp where
  | createOp (pre : Bool) (deps : ReqDeps)
  | updateOp (uuid : Nat) (pre : Bool) (deps : Option ReqDeps) (ffail : Bool)
  | deleteOp (uuid : Nat)

/-- One accepted lifecycle operation; `none` when the request was rejected. -/
def applyOp (s : Store) : AOp → Option Store
  | AOp.createOp pre ds =>
    match create_operator s pre ds with
    | OpResult.ok s' => some s'
    | OpResult.err _ => none
  | AOp.updateOp uuid pre ds ffail =>
    match update_operator s uuid pre ds ffail with
    | OpResult.ok s' => some s'
    | OpResult.err _ => none
  | AOp.deleteOp uuid => delete_operator s uuid

/-- A sequence of lifecycle operations, all accepted. -/
def run (s : Store) : List AOp → Option Store
  | [] => some s
  | o :: rest =>
    match applyOp s o with
    | some s' => run s' rest
    | none => none

theorem transGen_no_entry {r : Nat → Nat → Prop} {u : Nat}
    (hno : ∀ x y, r x y → y ≠ u) : ∀ {a b : Nat}, Relation.TransGen r a b → b ≠ u := by
  intro a b h
  induction h with
  | single h1 => exact hno _ _ h1
  | tail _ h1 _ => exact hno _ _ h1

theorem transGen_transfer {r rOld : Nat → Nat → Prop} {u : Nat}
    (hno : ∀ x y, r x y → y ≠ u)
    (hstep : ∀ x y, r x y → x ≠ u → rOld x y) :
    ∀ {a b : Nat}, Relation.TransGen r a b → a ≠ u → Relation.TransGen rOld a b := by
  intro a b h
  induction h with
  | single h1 =>
    intro ha
    exact Relation.TransGen.single (hstep _ _ h1 ha)
  | tail hxy h1 ih =>
    intro ha
    exact Relation.TransGen.tail (ih ha) (hstep _ _ h1 (transGen_no_entry hno hxy))

/-- An accepted create: inserting a fresh node and synchronizing its accepted
dependency list preserves well-formedness and acyclicity (the fresh node has
no incoming edge, so no new cycle can close). -/
theorem create_result_preserves {s s1 : Store} {l : List Nat}
    (hwf : WF s) (hAc : Acyclic s) (hnodup : l.Nodup)
    (hmem : ∀ d ∈ l, d ∈ s.operators)
    (hops1 : s1.operators = s.operators ++ [s.nextId])
    (hedges1 : s1.edges = s.edges)
    (hnext1 : s.nextId < s1.nextId) :
    WF (update_dependencies s1 s.nextId l) ∧
    Acyclic (update_dependencies s1 s.nextId l) := by
  have hu_not : s.nextId ∉ s.operators := fun hc => absurd (hwf.op_lt _ hc) (by omega)
  have hdeps_eq : ∀ q, depsOf s1 q = depsOf s q := by
    intro q
    simp only [depsOf, list_dependencies, hedges1]
  have hwf1 : WF s1 := by
    refine ⟨?_, ?_, ?_, ?_, ?_, ?_, ?_, ?_⟩
    · intro o ho
      rw [hops1] at ho
      rcases List.mem_append.mp ho with ho' | ho'
      · have := hwf.op_lt o ho'
        omega
      · rw [List.mem_singleton.mp ho']
        omega
    · rw [hops1]
      refine List.Nodup.append hwf.ops_nodup (List.nodup_singleton _) ?_
      intro x hx1 hx2
      rw [List.mem_singleton.mp hx2] at hx1
      exact hu_not hx1
    · intro e he
      rw [hedges1] at he
      have := hwf.uuid_lt e he
      omega
    · rw [hedges1]
      exact hwf.uuid_nodup
    · intro e he
      rw [hedges1] at he
      rw [hops1]
      exact List.mem_append_left _ (hwf.src_mem e he)
    · intro e he
      rw [hedges1] at he
      rw [hops1]
      exact List.mem_append_left _ (hwf.tgt_mem e he)
    · intro e he
      rw [hedges1] at he
      exact hwf.no_self e he
    · intro op
      rw [hdeps_eq op]
      exact hwf.tgt_nodup op
  have huops : s.nextId ∈ s1.operators := by
    rw [hops1]
    exact List.mem_append_right _ (List.mem_singleton_self _)
  have hlops : ∀ d ∈ l, d ∈ s1.operators := by
    intro d hd
    rw [hops1]
    exact List.mem_append_left _ (hmem d hd)
  have hunotl : s.nextId ∉ l := fun hc => hu_not (hmem _ hc)
  have hwfF := WF_update_dependencies hwf1 huops hlops hunotl hnodup
  refine ⟨hwfF, ?_⟩
  rintro ⟨v, hv, hcyc⟩
  have hopsF := update_dependencies_operators s1 s.nextId l
  have hselfF : ∀ x, x ∈ depsOf (update_dependencies s1 s.nextId l) s.nextId ↔
      x ∈ l :=
    fun _ => mem_depsOf_update_self hwf1.uuid_lt hwf1.uuid_nodup (hwf1.tgt_nodup _)
  have hframeF : ∀ q, q ≠ s.nextId →
      depsOf (update_dependencies s1 s.nextId l) q = depsOf s q := by
    intro q hq
    rw [depsOf_update_frame l hq hwf1.uuid_lt hwf1.uuid_nodup (hwf1.tgt_nodup _),
      hdeps_eq q]
  have hno : ∀ x y, adjStep (depsOf (update_dependencies s1 s.nextId l)) x y →
      y ≠ s.nextId := by
    intro x y hxy
    by_cases hx : x = s.nextId
    · subst hx
      have : y ∈ l := (hselfF y).mp hxy
      exact fun hc => hu_not (hc ▸ hmem y this)
    · rw [adjStep, hframeF x hx] at hxy
      obtain ⟨e, he, _, hd⟩ := mem_depsOf.mp hxy
      exact fun hc => hu_not (hc ▸ hd ▸ hwf.tgt_mem e he)
  have hvne : v ≠ s.nextId := transGen_no_entry hno hcyc
  have hstep : ∀ x y, adjStep (depsOf (update_dependencies s1 s.nextId l)) x y →
      x ≠ s.nextId → adjStep (depsOf s) x y := by
    intro x y hxy hx
    rw [adjStep, hframeF x hx] at hxy
    exact hxy
  have hold : Relation.TransGen (adjStep (depsOf s)) v v :=
    transGen_transfer hno hstep hcyc hvne
  have hvops : v ∈ s.operators := by
    rw [hopsF, hops1] at hv
    rcases List.mem_append.mp hv with hv' | hv'
    · exact hv'
    · exact absurd (List.mem_singleton.mp hv') hvne
  exact hAc ⟨v, hvops, hold⟩

/-- An accepted dependency update: synchronizing to a list whose union-overlay
graph is acyclic preserves well-formedness and acyclicity. -/
theorem update_result_preserves {s : Store} {uuid : Nat} {l : List Nat}
    (hwf : WF s) (huuid : uuid ∈ s.operators)
    (hnodup : l.Nodup) (hmem : ∀ d ∈ l, d ∈ s.operators) (hself : uuid ∉ l)
    (hnocycle : ¬ HasCycleIn (adjOf s l (some uuid)) s.operators) :
    WF (update_dependencies s uuid l) ∧ Acyclic (update_dependencies s uuid l) := by
  refine ⟨WF_update_dependencies hwf huuid hmem hself hnodup, ?_⟩
  rintro ⟨v, hv, hcyc⟩
  have hmono : ∀ x y, adjStep (depsOf (update_dependencies s uuid l)) x y →
      adjStep (adjOf s l (some uuid)) x y := by
    intro x y hxy
    by_cases hx : x = uuid
    · subst hx
      have : y ∈ l := (mem_depsOf_update_self hwf.uuid_lt hwf.uuid_nodup
        (hwf.tgt_nodup x)).mp hxy
      exact mem_adjOf.mpr (Or.inr ⟨rfl, this⟩)
    · rw [adjStep, depsOf_update_frame l hx hwf.uuid_lt hwf.uuid_nodup
        (hwf.tgt_nodup uuid)] at hxy
      exact mem_adjOf.mpr (Or.inl hxy)
  have hvops : v ∈ s.operators := by
    rw [update_dependencies_operators] at hv
    exact hv
  exact hnocycle ⟨v, hvops, Relation.TransGen.mono hmono hcyc⟩

/-- An accepted delete preserves well-formedness and acyclicity: every new
edge abbreviates an old two-step path through the deleted node. -/
theorem delete_preserves {s s' : Store} {uuid : Nat} (hwf : WF s) (hAc : Acyclic s)
    (h : delete_operator s uuid = some s') : WF s' ∧ Acyclic s' := by
  rw [delete_operator.eq_def] at h
  by_cases hu : uuid ∉ s.operators
  · rw [if_pos hu] at h
    cases h
  · rw [if_neg hu] at h
    obtain ⟨s1, hdel, hops1, hwf1, hN1, hcons, hframe, hnoedge⟩ :=
      delete_dependencies_spec uuid hwf (not_not.mp hu) hAc
    rw [hdel] at h
    cases h
    have hdeps_eq : ∀ q, depsOf { s1 with operators := s1.operators.erase uuid } q
        = depsOf s1 q := fun _ => rfl
    constructor
    · refine ⟨?_, hwf1.ops_nodup.erase _, hwf1.uuid_lt, hwf1.uuid_nodup, ?_, ?_,
        hwf1.no_self, ?_⟩
      · intro o ho
        exact hwf1.op_lt o (List.mem_of_mem_erase ho)
      · intro e he
        rw [List.mem_erase_of_ne (hnoedge e he).1]
        exact hwf1.src_mem e he
      · intro e he
        rw [List.mem_erase_of_ne (hnoedge e he).2]
        exact hwf1.tgt_mem e he
      · intro op
        rw [hdeps_eq op]
        exact hwf1.tgt_nodup op
    · rintro ⟨v, hv, hcyc⟩
      have hsub : ∀ x y, adjStep (depsOf { s1 with
          operators := s1.operators.erase uuid }) x y →
          Relation.TransGen (adjStep (depsOf s)) x y := by
        intro x y hxy
        rw [adjStep, hdeps_eq x] at hxy
        by_cases hxN : x = uuid
        · subst hxN
          rw [hN1] at hxy
          simp at hxy
        · by_cases hxc : uuid ∈ depsOf s x
          · have := (hcons x hxc y).mp hxy
            rcases this.1 with hy | hy
            · exact Relation.TransGen.head (show adjStep (depsOf s) x uuid from hxc)
                (Relation.TransGen.single (show adjStep (depsOf s) uuid y from hy))
            · exact Relation.TransGen.single hy
          · rw [hframe x hxN hxc] at hxy
            exact Relation.TransGen.single hxy
      have hcyc2 : Relation.TransGen (Relation.TransGen (adjStep (depsOf s))) v v :=
        Relation.TransGen.mono hsub hcyc
      rw [Relation.transGen_idem] at hcyc2
      have hvops : v ∈ s.operators := by
        rw [← hops1]
        exact List.mem_of_mem_erase hv
      exact hAc ⟨v, hvops, hcyc2⟩

/-- Every accepted lifecycle operation preserves well-formedness and
acyclicity of the pipeline. -/
theorem applyOp_preserves {s s' : Store} {o : AOp} (hwf : WF s) (hAc : Acyclic s)
    (h : applyOp s o = some s') : WF s' ∧ Acyclic s' := by
  match o with
  | AOp.deleteOp uuid => exact delete_preserves hwf hAc h
  | AOp.createOp pre ds =>
    rw [applyOp] at h
    rcases hc : create_operator s pre ds with s2 | s2
    · rw [hc] at h
      cases h
      rw [create_operator.eq_def] at hc
      by_cases hpre : pre = false
      · rw [if_pos hpre] at hc
        cases hc
      · rw [if_neg hpre] at hc
        cases ds with
        | notAList =>
          rcases hv : raise_if_dependencies_are_invalid s ReqDeps.notAList none
              with _ | e <;> rw [hv] at hc <;> cases hc
        | list l =>
          rcases hv : raise_if_dependencies_are_invalid s (ReqDeps.list l) none
              with _ | e
          · rw [hv] at hc
            simp only at hc
            obtain ⟨l', hleq, hnodup, hmem, _, _⟩ :=
              (validator_none_iff hwf.tgt_mem).mp hv
            injection hleq with hleq
            subst hleq
            cases hc
            exact create_result_preserves hwf hAc hnodup hmem rfl rfl
              (Nat.lt_succ_self _)
          · rw [hv] at hc
            cases hc
    · rw [hc] at h
      cases h
  | AOp.updateOp uuid pre ds ffail =>
    rw [applyOp] at h
    rcases hc : update_operator s uuid pre ds ffail with s2 | s2
    · rw [hc] at h
      cases h
      rw [update_operator.eq_def] at hc
      by_cases hu : uuid ∉ s.operators
      · rw [if_pos hu] at hc
        cases hc
      · rw [if_neg hu] at hc
        by_cases hpre : pre = false
        · rw [if_pos hpre] at hc
          cases hc
        · rw [if_neg hpre] at hc
          cases ds with
          | none =>
            dsimp only at hc
            by_cases hf : ffail = true
            · rw [if_pos hf] at hc
              cases hc
            · rw [if_neg hf] at hc
              cases hc
              exact ⟨hwf, hAc⟩
          | some ds2 =>
            dsimp only at hc
            cases ds2 with
            | notAList =>
              rcases hv : raise_if_dependencies_are_invalid s ReqDeps.notAList
                  (some uuid) with _ | e <;> rw [hv] at hc <;> cases hc
            | list l =>
              rcases hv : raise_if_dependencies_are_invalid s (ReqDeps.list l)
                  (some uuid) with _ | e
              · rw [hv] at hc
                simp only at hc
                obtain ⟨l', hleq, hnodup, hmem, hself, hnocycle⟩ :=
                  (validator_none_iff hwf.tgt_mem).mp hv
                injection hleq with hleq
                subst hleq
                by_cases hf : ffail = true
                · rw [if_pos hf] at hc
                  cases hc
                · rw [if_neg hf] at hc
                  cases hc
                  exact update_result_preserves hwf (not_not.mp hu) hnodup hmem
                    (fun hcmem => hself uuid hcmem rfl) hnocycle
              · rw [hv] at hc
                cases hc
    · rw [hc] at h
      cases h

/-- C1: starting from a well-formed acyclic pipeline, after any sequence of
accepted create/update/delete operations the directed graph of operators and
dependency edges still contains no cycle (spec invariant I2). -/
theorem C1_accepted_sequences_keep_acyclic (s : Store) (ops : List AOp) (s' : Store)
    (hwf : WF s) (hAc : Acyclic s) (h : run s ops = some s') : Acyclic s' := by
  induction ops generalizing s with
  | nil =>
    rw [run] at h
    cases h
    exact hAc
  | cons o rest ih =>
    rw [run] at h
    rcases ha : applyOp s o with _ | s1
    · rw [ha] at h
      cases h
    · rw [ha] at h
      obtain ⟨hwf1, hAc1⟩ := applyOp_preserves hwf hAc ha
      exact ih s1 hwf1 hAc1 h

theorem C1_witness :
    WF { operators := [], edges := [], nextId := 0, muts := 0 } ∧
    Acyclic { operators := [], edges := [], nextId := 0, muts := 0 } ∧
    run { operators := [], edges := [], nextId := 0, muts := 0 }
      [AOp.createOp true (ReqDeps.list [])]
      = some { operators := [0], edges := [], nextId := 1, muts := 0 } ∧
    Acyclic { operators := [0], edges := [], nextId := 1, muts := 0 } := by
  have hwf : WF { operators := [], edges := [], nextId := 0, muts := 0 } :=
    WF_no_edges [] 0 0 (by simp) (by simp)
  have hAc : Acyclic { operators := [], edges := [], nextId := 0, muts := 0 } := by
    rintro ⟨v, hv, _⟩
    simp at hv
  have hrun : run { operators := [], edges := [], nextId := 0, muts := 0 }
      [AOp.createOp true (ReqDeps.list [])]
      = some { operators := [0], edges := [], nextId := 1, muts := 0 } := rfl
  exact ⟨hwf, hAc, hrun,
    C1_accepted_sequences_keep_acyclic _ [AOp.createOp true (ReqDeps.list [])] _
      hwf hAc hrun⟩

end ProjectsGraph
